import Mathlib

/-!
Verification of the smoldot trie-proof decode/verify engine specification,
together with the full-node client facade (informant loop, peer counters).

The trie-proof engine itself (`smoldot::trie::proof_decode`) is not part of
the provided sources (only its caller, the proof-decode benchmark, is), so
its data model and operations are modelled from the specification: node
codec, merkle-value resolver, proof-graph builder, verifier and query view.
Byte strings are `List Nat` (each element a byte value), hashes are 32-byte
digests, and all operations are total executable functions returning
`Except` values for fallible steps.
-/

set_option maxHeartbeats 1600000
set_option maxRecDepth 100000

namespace Smoldot

/-! ## Errors -/

/-- Modelled from the spec: `CodecError` family — single-node malformation:
truncated, invalid header, bad child length. -/
inductive CodecError where
  | Truncated
  | InvalidHeader
  | BadChildLength
deriving DecidableEq

/-- Modelled from the spec: `ProofError` family — graph-level errors:
trailing garbage, duplicate entry, unused entry, root not found,
missing child, empty proof. -/
inductive ProofError where
  | TrailingGarbage
  | DuplicateEntry
  | Empty
  | UnusedEntry
  | RootNotFound
  | MissingChild
deriving DecidableEq

/-- Modelled from the spec: the output error is either a `CodecError` or a
graph-level `ProofError`. -/
inductive PError where
  | Codec (e : CodecError)
  | Graph (e : ProofError)
deriving DecidableEq

/-! ## Data model -/

/-- Modelled from the spec: a child slot of a decoded trie node, either a
32-byte hash reference or the raw encoded bytes of a child short enough to
embed instead of hash-reference. -/
inductive ChildRef where
  | Hash (h : List Nat)
  | Inline (b : List Nat)
deriving DecidableEq

/-- Modelled from the spec: the storage value of a node, either plain bytes
or only the 32-byte hash of a value that was intentionally excluded from
the proof. -/
inductive StorageValue where
  | Plain (b : List Nat)
  | HashOnly (h : List Nat)
deriving DecidableEq

/-- Modelled from the spec: `TrieNode` — a decoded proof entry, with a
partial key (sequence of nibbles), 16 optional child slots (one per nibble
value) and an optional storage value. -/
structure TrieNode where
  partial_key : List Nat
  children : List (Option ChildRef)
  storage_value : Option StorageValue
deriving DecidableEq

instance : Inhabited TrieNode := ⟨⟨[], [], none⟩⟩

/-- Modelled from the spec: the merkle value of an encoding: a hash for
large encodings, or the raw encoding itself when small ("inline"). -/
inductive MerkleValue where
  | Hashed (h : List Nat)
  | Inline (b : List Nat)
deriving DecidableEq

/-! ## Hash function

The concrete hash is a wire-format constant external to the spec (it only
requires a deterministic total function producing a 32-byte digest), so it
is modelled as a polynomial rolling hash reduced modulo a large prime and
expanded to 32 bytes. -/

/-- Modelled from the spec: modulus used by the modelled 32-byte hash. -/
def hashModulus : Nat := 2 ^ 255 - 19

/-- Modelled from the spec: accumulator of the modelled hash function. -/
def hashAcc (b : List Nat) : Nat :=
  b.foldl (fun a x => (a * 256 + x + 1) % hashModulus) 1

/-- Modelled from the spec: the hash function — a deterministic, total
function of the input bytes producing a 32-byte digest. -/
def hashBytes (b : List Nat) : List Nat :=
  (List.range 32).map (fun i => hashAcc b / 256 ^ i % 256)

theorem hashBytes_length (b : List Nat) : (hashBytes b).length = 32 := by
  simp [hashBytes]

/-- Modelled from the spec: `merkle_value(bytes)`: `Inline(bytes)` if the
length is below 32, else `Hashed(hash(bytes))`. Deterministic, total, no
failure mode. -/
def merkle_value (b : List Nat) : MerkleValue :=
  if b.length < 32 then .Inline b else .Hashed (hashBytes b)

/-! ## Parser combinators for the node codec

A parser consumes a prefix of the byte buffer and returns the parsed value
together with the unconsumed suffix; failures are returned `CodecError`s.
Lengths are always validated against the remaining buffer (`readN`) before
any bytes are materialised. -/

/-- Modelled from the spec: a parser over byte buffers, returning the value
and the unconsumed rest, or a `CodecError`. -/
def P (α : Type) : Type := List Nat → Except CodecError (α × List Nat)

/-- Parser returning a value without consuming input. -/
def ppure {α : Type} (a : α) : P α := fun b => .ok (a, b)

/-- Sequencing of parsers. -/
def pbind {α β : Type} (p : P α) (f : α → P β) : P β := fun b =>
  match p b with
  | .ok (a, r) => f a r
  | .error e => .error e

/-- Failing parser. -/
def pfail {α : Type} (e : CodecError) : P α := fun _ => .error e

/-- Read one byte; `Truncated` on empty input. -/
def readByte : P Nat := fun b =>
  match b with
  | [] => .error .Truncated
  | x :: r => .ok (x, r)

/-- Read exactly `k` bytes, validating `k` against the remaining buffer
before taking them; `Truncated` if fewer remain. -/
def readN (k : Nat) : P (List Nat) := fun b =>
  if k ≤ b.length then .ok (b.take k, b.drop k) else .error .Truncated

/-- A parser is good when, on success, the unconsumed rest is a suffix of
the input obtained by dropping the consumed bytes, and the result is
stable under extending the input on the right. -/
def PGood {α : Type} (p : P α) : Prop :=
  ∀ b a r, p b = .ok (a, r) →
    (∃ c, c ≤ b.length ∧ r = b.drop c) ∧
    ∀ ext, p (b ++ ext) = .ok (a, r ++ ext)

theorem ppure_good {α : Type} (a : α) : PGood (ppure a) := by
  intro b x r h
  simp only [ppure, Except.ok.injEq, Prod.mk.injEq] at h
  obtain ⟨rfl, rfl⟩ := h
  exact ⟨⟨0, Nat.zero_le _, rfl⟩, fun ext => rfl⟩

theorem pfail_good {α : Type} (e : CodecError) : PGood (@pfail α e) := by
  intro b x r h
  simp [pfail] at h

theorem readByte_good : PGood readByte := by
  intro b a r h
  cases b with
  | nil => simp [readByte] at h
  | cons x t =>
    simp only [readByte, Except.ok.injEq, Prod.mk.injEq] at h
    obtain ⟨rfl, rfl⟩ := h
    refine ⟨⟨1, by simp, rfl⟩, fun ext => ?_⟩
    simp [readByte]

theorem readN_good (k : Nat) : PGood (readN k) := by
  intro b a r h
  simp only [readN] at h
  split at h
  · next hk =>
    simp only [Except.ok.injEq, Prod.mk.injEq] at h
    obtain ⟨rfl, rfl⟩ := h
    refine ⟨⟨k, hk, rfl⟩, fun ext => ?_⟩
    have hk2 : k ≤ (b ++ ext).length := by
      simp only [List.length_append]; omega
    simp only [readN, if_pos hk2, List.take_append_of_le_length hk,
      List.drop_append_of_le_length hk]
  · exact absurd h (by simp)

theorem pbind_good {α β : Type} {p : P α} {f : α → P β}
    (hp : PGood p) (hf : ∀ a, PGood (f a)) : PGood (pbind p f) := by
  intro b a r h
  simp only [pbind] at h
  cases hpb : p b with
  | error e => rw [hpb] at h; exact absurd h (by simp)
  | ok v =>
    obtain ⟨a0, r0⟩ := v
    rw [hpb] at h
    obtain ⟨⟨c0, hc0, hr0⟩, hext0⟩ := hp b a0 r0 hpb
    obtain ⟨⟨c1, hc1, hr1⟩, hext1⟩ := hf a0 r0 a r h
    constructor
    · refine ⟨c0 + c1, ?_, ?_⟩
      · subst hr0
        have := List.length_drop c0 b
        omega
      · subst hr0 hr1
        rw [List.drop_drop]
    · intro ext
      simp only [pbind, hext0 ext, hext1 ext]

/-! ## Node codec -/

/-- Unpack bytes into nibbles, two nibbles per byte, high nibble first. -/
def unpackNibbles (bs : List Nat) : List Nat :=
  bs.foldr (fun x acc => x / 16 :: x % 16 :: acc) []

/-- Modelled from the spec: remainder of the header after its first byte
(length-extension byte when the six length bits saturate). -/
def headerTail (h : Nat) : P (Nat × Nat) :=
  if 3 ≤ h / 64 then pfail .InvalidHeader
  else if h % 64 = 63 then
    pbind readByte (fun e =>
      if 63 + e ≤ 64 then ppure (h / 64, 63 + e) else pfail .InvalidHeader)
  else ppure (h / 64, h % 64)

/-- Modelled from the spec: header parser — one byte encoding the node kind
(0 leaf, 1 branch without value, 2 branch with value; the remaining kind
bit pattern is reserved and rejected with `InvalidHeader`) and the
partial-key length in the low six bits, with a length-extension byte when
the six bits saturate; partial keys are at most 64 nibbles long. -/
def headerP : P (Nat × Nat) :=
  pbind readByte headerTail

/-- Modelled from the spec: partial-key parser — the key is packed two
nibbles per byte. -/
def pkP (pklen : Nat) : P (List Nat) :=
  pbind (readN ((pklen + 1) / 2)) (fun bs => ppure ((unpackNibbles bs).take pklen))

/-- Modelled from the spec: child-slot parser — a length byte, a declared
length of 32 denoting a hash reference, a length of at most 31 denoting an
inline child, anything else rejected with `BadChildLength`. -/
def childSlotP : P ChildRef :=
  pbind readByte (fun L =>
    if L = 32 then pbind (readN 32) (fun h => ppure (.Hash h))
    else if L ≤ 31 then pbind (readN L) (fun bs => ppure (.Inline bs))
    else pfail .BadChildLength)

/-- Lowest `k` bits of a natural number, least significant first. -/
def natToBits : Nat → Nat → List Bool
  | 0, _ => []
  | k + 1, n => (n % 2 = 1) :: natToBits k (n / 2)

/-- Modelled from the spec: 16-bit child-presence bitmap parser (two bytes,
little endian). -/
def bitmapP : P (List Bool) :=
  pbind readByte (fun c0 =>
    pbind readByte (fun c1 => ppure (natToBits 16 (c0 + 256 * c1))))

/-- Modelled from the spec: children parser — one length-prefixed
merkle-value slot per present child, in nibble order. -/
def childrenP : List Bool → P (List (Option ChildRef))
  | [] => ppure []
  | bit :: bits =>
    if bit then
      pbind childSlotP (fun ref =>
        pbind (childrenP bits) (fun rest => ppure (some ref :: rest)))
    else
      pbind (childrenP bits) (fun rest => ppure (none :: rest))

/-- Modelled from the spec: storage-value parser — a tag byte distinguishes
a plain length-prefixed value (tag 0, two length bytes little endian) from
a 32-byte value hash (tag 1); other tags are rejected. -/
def valueP : P StorageValue :=
  pbind readByte (fun tag =>
    if tag = 0 then
      pbind readByte (fun l0 =>
        pbind readByte (fun l1 =>
          pbind (readN (l0 + 256 * l1)) (fun v => ppure (.Plain v))))
    else if tag = 1 then pbind (readN 32) (fun h => ppure (.HashOnly h))
    else pfail .InvalidHeader)

/-- Modelled from the spec: remainder of a node encoding after the header —
packed partial key, then for branch kinds the bitmap and the child slots,
then for leaf and branch-with-value kinds the storage value. -/
def nodeTail (kp : Nat × Nat) : P TrieNode :=
  pbind (pkP kp.2) (fun pk =>
    if kp.1 = 0 then
      pbind valueP (fun v => ppure ⟨pk, List.replicate 16 none, some v⟩)
    else
      pbind bitmapP (fun bits =>
        pbind (childrenP bits) (fun cs =>
          if kp.1 = 1 then ppure ⟨pk, cs, none⟩
          else pbind valueP (fun v => ppure ⟨pk, cs, some v⟩))))

/-- Modelled from the spec: full node parser — header, packed partial key,
then for branch kinds the bitmap and the child slots, then for leaf and
branch-with-value kinds the storage value. -/
def nodeP : P TrieNode :=
  pbind headerP nodeTail

/-- Modelled from the spec: `decode_node(bytes)` returns the decoded node
and the number of bytes consumed, or a `CodecError`; the encoding is
self-delimiting. -/
def decode_node (b : List Nat) : Except CodecError (TrieNode × Nat) :=
  match nodeP b with
  | .ok (n, r) => .ok (n, b.length - r.length)
  | .error e => .error e

theorem headerTail_good (h : Nat) : PGood (headerTail h) := by
  dsimp only [headerTail]
  split
  · exact pfail_good _
  · split
    · refine pbind_good readByte_good (fun e => ?_)
      dsimp only
      split
      · exact ppure_good _
      · exact pfail_good _
    · exact ppure_good _

theorem headerP_good : PGood headerP :=
  pbind_good readByte_good headerTail_good

theorem pkP_good (pklen : Nat) : PGood (pkP pklen) :=
  pbind_good (readN_good _) (fun _ => ppure_good _)

theorem childSlotP_good : PGood childSlotP := by
  refine pbind_good readByte_good (fun L => ?_)
  dsimp only
  split
  · exact pbind_good (readN_good _) (fun _ => ppure_good _)
  · split
    · exact pbind_good (readN_good _) (fun _ => ppure_good _)
    · exact pfail_good _

theorem bitmapP_good : PGood bitmapP :=
  pbind_good readByte_good (fun _ =>
    pbind_good readByte_good (fun _ => ppure_good _))

theorem childrenP_good (bits : List Bool) : PGood (childrenP bits) := by
  induction bits with
  | nil => exact ppure_good _
  | cons bit bits ih =>
    dsimp only [childrenP]
    split
    · exact pbind_good childSlotP_good (fun _ => pbind_good ih (fun _ => ppure_good _))
    · exact pbind_good ih (fun _ => ppure_good _)

theorem valueP_good : PGood valueP := by
  refine pbind_good readByte_good (fun tag => ?_)
  dsimp only
  split
  · exact pbind_good readByte_good (fun _ =>
      pbind_good readByte_good (fun _ =>
        pbind_good (readN_good _) (fun _ => ppure_good _)))
  · split
    · exact pbind_good (readN_good _) (fun _ => ppure_good _)
    · exact pfail_good _

theorem nodeTail_good (kp : Nat × Nat) : PGood (nodeTail kp) := by
  dsimp only [nodeTail]
  refine pbind_good (pkP_good _) (fun pk => ?_)
  dsimp only
  split
  · exact pbind_good valueP_good (fun _ => ppure_good _)
  · refine pbind_good bitmapP_good (fun bits => ?_)
    refine pbind_good (childrenP_good _) (fun cs => ?_)
    dsimp only
    split
    · exact ppure_good _
    · exact pbind_good valueP_good (fun _ => ppure_good _)

theorem nodeP_good : PGood nodeP :=
  pbind_good headerP_good nodeTail_good

/-! ## Decode-level facts: consumption bounds and extension stability -/

theorem pbind_ok {α β : Type} {p : P α} {f : α → P β} {b : List Nat}
    {a : β} {r : List Nat} (h : pbind p f b = .ok (a, r)) :
    ∃ a0 r0, p b = .ok (a0, r0) ∧ f a0 r0 = .ok (a, r) := by
  simp only [pbind] at h
  cases hpb : p b with
  | error e => rw [hpb] at h; exact absurd h (by simp)
  | ok v =>
    obtain ⟨a0, r0⟩ := v
    rw [hpb] at h
    exact ⟨a0, r0, rfl, h⟩

theorem PGood.rest_le {α : Type} {p : P α} (hp : PGood p) {b : List Nat}
    {a : α} {r : List Nat} (h : p b = .ok (a, r)) : r.length ≤ b.length := by
  obtain ⟨⟨c, hc, rfl⟩, _⟩ := hp b a r h
  simp only [List.length_drop]
  omega

theorem nodeP_consumes {b : List Nat} {n : TrieNode} {r : List Nat}
    (h : nodeP b = .ok (n, r)) : r.length < b.length := by
  obtain ⟨kp, r0, hh, hg⟩ := pbind_ok h
  obtain ⟨x, t, hrb, hf⟩ := pbind_ok hh
  cases b with
  | nil => simp [readByte] at hrb
  | cons y b0 =>
    simp only [readByte, Except.ok.injEq, Prod.mk.injEq] at hrb
    obtain ⟨rfl, rfl⟩ := hrb
    have h1 := (headerTail_good _).rest_le hf
    have h2 := (nodeTail_good _).rest_le hg
    simp only [List.length_cons]
    omega

theorem decode_node_ok_iff {b : List Nat} {n : TrieNode} {c : Nat} :
    decode_node b = .ok (n, c) ↔
      ∃ r, nodeP b = .ok (n, r) ∧ c = b.length - r.length := by
  constructor
  · intro h
    simp only [decode_node] at h
    cases hb : nodeP b with
    | error e => rw [hb] at h; exact absurd h (by simp)
    | ok v =>
      obtain ⟨n0, r0⟩ := v
      rw [hb] at h
      simp only [Except.ok.injEq, Prod.mk.injEq] at h
      obtain ⟨rfl, rfl⟩ := h
      exact ⟨r0, rfl, rfl⟩
  · rintro ⟨r, hb, rfl⟩
    simp [decode_node, hb]

theorem decode_node_bounds {b : List Nat} {n : TrieNode} {c : Nat}
    (h : decode_node b = .ok (n, c)) : 1 ≤ c ∧ c ≤ b.length := by
  obtain ⟨r, hb, rfl⟩ := decode_node_ok_iff.mp h
  have h1 := nodeP_consumes hb
  omega

theorem decode_node_ext {b : List Nat} {n : TrieNode} {c : Nat}
    (h : decode_node b = .ok (n, c)) :
    ∀ ext, decode_node (b ++ ext) = .ok (n, c) := by
  obtain ⟨r, hb, rfl⟩ := decode_node_ok_iff.mp h
  intro ext
  obtain ⟨⟨c0, hc0, hr⟩, hext⟩ := nodeP_good b n r hb
  have hrl : r.length ≤ b.length := by
    subst hr; simp only [List.length_drop]; omega
  refine decode_node_ok_iff.mpr ⟨r ++ ext, hext ext, ?_⟩
  simp only [List.length_append]
  omega

/-! ## Proof graph builder

Modelled from the spec: the proof buffer is a concatenation of
independently self-delimiting node encodings with no outer length prefix;
the codec is invoked repeatedly at the current offset, advancing by the
consumed byte count. -/

/-- Result of scanning the flat buffer: either every entry decoded and the
buffer was consumed exactly, or decoding failed after some complete
entries. -/
inductive ScanResult where
  | complete (entries : List (List Nat × TrieNode))
  | failed (entries : List (List Nat × TrieNode)) (e : CodecError)
deriving DecidableEq

/-- Modelled from the spec: scanning loop over the buffer (fuel-indexed;
the fuel is always sufficient because every entry consumes at least one
byte). -/
def scanGo : Nat → List Nat → ScanResult
  | _, [] => .complete []
  | 0, _ :: _ => .failed [] .Truncated
  | fuel + 1, x :: rest =>
    match decode_node (x :: rest) with
    | .error e => .failed [] e
    | .ok (n, c) =>
      match scanGo fuel ((x :: rest).drop c) with
      | .complete es => .complete (((x :: rest).take c, n) :: es)
      | .failed es e => .failed (((x :: rest).take c, n) :: es) e

/-- Modelled from the spec: scan the whole buffer into its entries. -/
def scanEntries (b : List Nat) : ScanResult := scanGo (b.length + 1) b

theorem scanGo_nil (fuel : Nat) : scanGo fuel [] = .complete [] := by
  cases fuel <;> rfl

theorem scanGo_fuel (k : Nat) :
    ∀ b : List Nat, b.length ≤ k → ∀ f1 f2, b.length < f1 → b.length < f2 →
      scanGo f1 b = scanGo f2 b := by
  induction k with
  | zero =>
    intro b hb f1 f2 _ _
    have : b = [] := List.eq_nil_of_length_eq_zero (by omega)
    subst this
    rw [scanGo_nil, scanGo_nil]
  | succ k ih =>
    intro b hb f1 f2 h1 h2
    cases b with
    | nil => rw [scanGo_nil, scanGo_nil]
    | cons x rest =>
      obtain ⟨f1p, rfl⟩ : ∃ m, f1 = m + 1 := ⟨f1 - 1, by omega⟩
      obtain ⟨f2p, rfl⟩ : ∃ m, f2 = m + 1 := ⟨f2 - 1, by omega⟩
      simp only [scanGo]
      cases hd : decode_node (x :: rest) with
      | error e => rfl
      | ok v =>
        obtain ⟨n, c⟩ := v
        obtain ⟨hc1, hc2⟩ := decode_node_bounds hd
        have hlen : ((x :: rest).drop c).length = (x :: rest).length - c := by
          simp [List.length_drop]
        have hrec : scanGo f1p ((x :: rest).drop c) = scanGo f2p ((x :: rest).drop c) := by
          refine ih _ ?_ _ _ ?_ ?_ <;> simp only [hlen, List.length_cons] at * <;> omega
        simp only [hrec]

theorem scanEntries_step {b : List Nat} {n : TrieNode} {c : Nat}
    (hne : b ≠ []) (hd : decode_node b = .ok (n, c)) :
    scanEntries b =
      (match scanEntries (b.drop c) with
       | .complete es => .complete ((b.take c, n) :: es)
       | .failed es e => .failed ((b.take c, n) :: es) e) := by
  obtain ⟨x, rest, rfl⟩ : ∃ x rest, b = x :: rest := by
    cases b with
    | nil => exact absurd rfl hne
    | cons x rest => exact ⟨x, rest, rfl⟩
  obtain ⟨hc1, hc2⟩ := decode_node_bounds hd
  show scanGo ((x :: rest).length + 1) (x :: rest) = _
  simp only [List.length_cons]
  simp only [scanGo, hd]
  have hfix : scanGo (rest.length + 1) ((x :: rest).drop c) =
      scanEntries ((x :: rest).drop c) := by
    refine scanGo_fuel ((x :: rest).drop c).length _ le_rfl _ _ ?_ ?_ <;>
      simp only [List.length_drop, List.length_cons] at * <;> omega
  rw [hfix]

theorem scanEntries_error {b : List Nat} {e : CodecError}
    (hne : b ≠ []) (hd : decode_node b = .error e) :
    scanEntries b = .failed [] e := by
  obtain ⟨x, rest, rfl⟩ : ∃ x rest, b = x :: rest := by
    cases b with
    | nil => exact absurd rfl hne
    | cons x rest => exact ⟨x, rest, rfl⟩
  show scanGo ((x :: rest).length + 1) (x :: rest) = _
  simp only [List.length_cons]
  simp only [scanGo, hd]

theorem scanEntries_nil : scanEntries ([] : List Nat) = .complete [] :=
  scanGo_nil _

theorem scanEntries_append {b1 : List Nat}
    {es : List (List Nat × TrieNode)} (h : scanEntries b1 = .complete es) :
    ∀ b2, scanEntries (b1 ++ b2) =
      (match scanEntries b2 with
       | .complete es2 => .complete (es ++ es2)
       | .failed es2 e => .failed (es ++ es2) e) := by
  have hgen : ∀ k (b1 : List Nat), b1.length ≤ k →
      ∀ es, scanEntries b1 = .complete es →
      ∀ b2, scanEntries (b1 ++ b2) =
        (match scanEntries b2 with
         | .complete es2 => .complete (es ++ es2)
         | .failed es2 e => .failed (es ++ es2) e) := by
    intro k
    induction k with
    | zero =>
      intro b1 hb es h b2
      have : b1 = [] := List.eq_nil_of_length_eq_zero (by omega)
      subst this
      rw [scanEntries_nil] at h
      simp only [ScanResult.complete.injEq] at h
      subst h
      simp only [List.nil_append]
      cases scanEntries b2 <;> simp
    | succ k ih =>
      intro b1 hb es h b2
      cases hb1 : b1 with
      | nil =>
        subst hb1
        rw [scanEntries_nil] at h
        simp only [ScanResult.complete.injEq] at h
        subst h
        simp only [List.nil_append]
        cases scanEntries b2 <;> simp
      | cons x rest =>
        subst hb1
        cases hd : decode_node (x :: rest) with
        | error e =>
          rw [scanEntries_error (by simp) hd] at h
          exact absurd h (by simp)
        | ok v =>
          obtain ⟨n, c⟩ := v
          obtain ⟨hc1, hc2⟩ := decode_node_bounds hd
          rw [scanEntries_step (by simp) hd] at h
          cases hrest : scanEntries ((x :: rest).drop c) with
          | failed es0 e => rw [hrest] at h; exact absurd h (by simp)
          | complete es0 =>
            rw [hrest] at h
            simp only [ScanResult.complete.injEq] at h
            subst h
            have hd2 : decode_node ((x :: rest) ++ b2) = .ok (n, c) :=
              decode_node_ext hd b2
            rw [scanEntries_step (by simp) hd2]
            have hdrop : ((x :: rest) ++ b2).drop c = (x :: rest).drop c ++ b2 :=
              List.drop_append_of_le_length hc2
            have htake : ((x :: rest) ++ b2).take c = (x :: rest).take c :=
              List.take_append_of_le_length hc2
            have hih := ih ((x :: rest).drop c)
              (by simp only [List.length_drop, List.length_cons] at *; omega)
              es0 hrest b2
            rw [hdrop, htake, hih]
            cases scanEntries b2 <;> simp
  exact hgen b1.length b1 le_rfl es h

/-- The node decoded from a byte string (defaulting on failure; only used
on strings known to decode). -/
def decodedNode (b : List Nat) : TrieNode :=
  match decode_node b with
  | .ok (n, _) => n
  | .error _ => default

theorem scanEntries_concat {chunks : List (List Nat)}
    (h : ∀ e ∈ chunks, e ≠ [] ∧ decode_node e = .ok (decodedNode e, e.length)) :
    scanEntries chunks.flatten = .complete (chunks.map (fun e => (e, decodedNode e))) := by
  induction chunks with
  | nil => simpa using scanEntries_nil
  | cons e rest ih =>
    obtain ⟨hne, hd⟩ := h e (by simp)
    have hself : scanEntries e = .complete [(e, decodedNode e)] := by
      rw [scanEntries_step hne hd]
      simp only [List.drop_length, List.take_length, scanEntries_nil]
    have hrest := ih (fun x hx => h x (by simp [hx]))
    rw [List.flatten_cons, scanEntries_append hself, hrest]
    simp

/-- Modelled from the spec: turn a scan result into the built proof graph,
failing with `TrailingGarbage` when the final decoded entry does not end
exactly at the buffer boundary (a codec failure before any complete entry
is reported as that `CodecError`), and with `DuplicateEntry` when two
entries share a merkle value (duplicates are rejected, never silently
merged). -/
def buildOfScan : ScanResult → Except PError (List (List Nat × TrieNode))
  | .failed [] e => .error (.Codec e)
  | .failed (_ :: _) _ => .error (.Graph .TrailingGarbage)
  | .complete es =>
    if (es.map (fun p => merkle_value p.1)).Nodup then .ok es
    else .error (.Graph .DuplicateEntry)

/-- Modelled from the spec: `build(buffer)` — scan the buffer as a
concatenation of self-delimiting node encodings and build the proof
graph. -/
def buildEntries (b : List Nat) : Except PError (List (List Nat × TrieNode)) :=
  buildOfScan (scanEntries b)

theorem buildEntries_ok_iff {b : List Nat} {es : List (List Nat × TrieNode)} :
    buildEntries b = .ok es ↔
      scanEntries b = .complete es ∧
        (es.map (fun p => merkle_value p.1)).Nodup := by
  constructor
  · intro h
    unfold buildEntries at h
    cases hs : scanEntries b with
    | failed es0 e =>
      rw [hs] at h
      cases es0 <;> simp [buildOfScan] at h
    | complete es0 =>
      rw [hs] at h
      simp only [buildOfScan] at h
      split at h
      · next hn =>
        simp only [Except.ok.injEq] at h
        subst h
        exact ⟨rfl, hn⟩
      · exact absurd h (by simp)
  · rintro ⟨hs, hn⟩
    unfold buildEntries
    rw [hs]
    simp [buildOfScan, hn]

theorem scan_sum_length {b : List Nat} {es : List (List Nat × TrieNode)}
    (h : scanEntries b = .complete es) :
    (es.map (fun p => p.1.length)).sum = b.length := by
  have hgen : ∀ k (b : List Nat), b.length ≤ k →
      ∀ es, scanEntries b = .complete es →
        (es.map (fun p => p.1.length)).sum = b.length := by
    intro k
    induction k with
    | zero =>
      intro b hb es h
      have : b = [] := List.eq_nil_of_length_eq_zero (by omega)
      subst this
      rw [scanEntries_nil] at h
      simp only [ScanResult.complete.injEq] at h
      subst h
      simp
    | succ k ih =>
      intro b hb es h
      cases hb1 : b with
      | nil =>
        subst hb1
        rw [scanEntries_nil] at h
        simp only [ScanResult.complete.injEq] at h
        subst h
        simp
      | cons x rest =>
        subst hb1
        cases hd : decode_node (x :: rest) with
        | error e =>
          rw [scanEntries_error (by simp) hd] at h
          exact absurd h (by simp)
        | ok v =>
          obtain ⟨n, c⟩ := v
          obtain ⟨hc1, hc2⟩ := decode_node_bounds hd
          rw [scanEntries_step (by simp) hd] at h
          cases hrest : scanEntries ((x :: rest).drop c) with
          | failed es0 e => rw [hrest] at h; exact absurd h (by simp)
          | complete es0 =>
            rw [hrest] at h
            simp only [ScanResult.complete.injEq] at h
            subst h
            have hih := ih ((x :: rest).drop c)
              (by simp only [List.length_drop, List.length_cons] at *; omega)
              es0 hrest
            simp only [List.map_cons, List.sum_cons, hih, List.length_take,
              List.length_drop]
            simp only [List.length_cons] at *
            omega
  exact hgen b.length b le_rfl es h

theorem buildEntries_sum_length {b : List Nat} {es : List (List Nat × TrieNode)}
    (h : buildEntries b = .ok es) :
    (es.map (fun p => p.1.length)).sum = b.length :=
  scan_sum_length (buildEntries_ok_iff.mp h).1

/-! ## Structural facts about decoded children

A hash child reference can only appear in an encoding of at least 33 bytes
(one length byte plus the 32-byte hash), and an inline child is strictly
shorter than the encoding embedding it and at most 31 bytes long. Hence an
inline child (less than 32 bytes by the merkle-value rule) can never
contain hash references, at any nesting depth. -/

/-- Facts satisfied by one decoded child slot relative to the length of the
buffer it was decoded from. -/
def slotFacts (copt : Option ChildRef) (len : Nat) : Prop :=
  (∀ h, copt = some (.Hash h) → 33 ≤ len ∧ h.length = 32) ∧
  (∀ ib, copt = some (.Inline ib) → ib.length < len ∧ ib.length ≤ 31)

theorem slotFacts_mono {copt : Option ChildRef} {len len2 : Nat}
    (hle : len ≤ len2) (h : slotFacts copt len) : slotFacts copt len2 := by
  obtain ⟨h1, h2⟩ := h
  constructor
  · intro h0 he
    obtain ⟨a, b⟩ := h1 h0 he
    exact ⟨by omega, b⟩
  · intro ib he
    obtain ⟨a, b⟩ := h2 ib he
    exact ⟨by omega, b⟩

theorem slotFacts_none (len : Nat) : slotFacts none len := by
  constructor <;> intro x hx <;> simp at hx

theorem childSlotP_facts {b : List Nat} {ref : ChildRef} {r : List Nat}
    (h : childSlotP b = .ok (ref, r)) : slotFacts (some ref) b.length := by
  obtain ⟨L, t, hrb, hf⟩ := pbind_ok h
  cases b with
  | nil => simp [readByte] at hrb
  | cons y b0 =>
    simp only [readByte, Except.ok.injEq, Prod.mk.injEq] at hrb
    obtain ⟨rfl, rfl⟩ := hrb
    by_cases h32 : y = 32
    · rw [if_pos h32] at hf
      obtain ⟨hs, t2, hrn, hp⟩ := pbind_ok hf
      simp only [readN] at hrn
      split at hrn
      · next hlen =>
        simp only [Except.ok.injEq, Prod.mk.injEq] at hrn
        obtain ⟨rfl, rfl⟩ := hrn
        simp only [ppure, Except.ok.injEq, Prod.mk.injEq] at hp
        obtain ⟨rfl, rfl⟩ := hp
        constructor
        · intro hh he
          simp only [Option.some.injEq, ChildRef.Hash.injEq] at he
          subst he
          refine ⟨by simp only [List.length_cons]; omega, ?_⟩
          simp only [List.length_take]
          omega
        · intro ib he
          simp at he
      · exact absurd hrn (by simp)
    · rw [if_neg h32] at hf
      by_cases h31 : y ≤ 31
      · rw [if_pos h31] at hf
        obtain ⟨bs, t2, hrn, hp⟩ := pbind_ok hf
        simp only [readN] at hrn
        split at hrn
        · next hlen =>
          simp only [Except.ok.injEq, Prod.mk.injEq] at hrn
          obtain ⟨rfl, rfl⟩ := hrn
          simp only [ppure, Except.ok.injEq, Prod.mk.injEq] at hp
          obtain ⟨rfl, rfl⟩ := hp
          constructor
          · intro hh he
            simp at he
          · intro ib he
            simp only [Option.some.injEq, ChildRef.Inline.injEq] at he
            subst he
            simp only [List.length_take, List.length_cons]
            omega
        · exact absurd hrn (by simp)
      · rw [if_neg h31] at hf
        simp [pfail] at hf

theorem childrenP_facts {bits : List Bool} {b : List Nat}
    {cs : List (Option ChildRef)} {r : List Nat}
    (h : childrenP bits b = .ok (cs, r)) :
    ∀ copt ∈ cs, slotFacts copt b.length := by
  induction bits generalizing b cs r with
  | nil =>
    simp only [childrenP, ppure, Except.ok.injEq, Prod.mk.injEq] at h
    obtain ⟨rfl, rfl⟩ := h
    intro copt hc
    simp at hc
  | cons bit bits ih =>
    dsimp only [childrenP] at h
    by_cases hbit : bit = true
    · rw [if_pos hbit] at h
      obtain ⟨ref, r0, hslot, hrest⟩ := pbind_ok h
      obtain ⟨cs0, r1, hcs, hp⟩ := pbind_ok hrest
      simp only [ppure, Except.ok.injEq, Prod.mk.injEq] at hp
      obtain ⟨rfl, rfl⟩ := hp
      have hr0 : r0.length ≤ b.length := childSlotP_good.rest_le hslot
      intro copt hc
      simp only [List.mem_cons] at hc
      cases hc with
      | inl he => subst he; exact childSlotP_facts hslot
      | inr he => exact slotFacts_mono hr0 (ih hcs copt he)
    · rw [if_neg hbit] at h
      obtain ⟨cs0, r1, hcs, hp⟩ := pbind_ok h
      simp only [ppure, Except.ok.injEq, Prod.mk.injEq] at hp
      obtain ⟨rfl, rfl⟩ := hp
      intro copt hc
      simp only [List.mem_cons] at hc
      cases hc with
      | inl he => subst he; exact slotFacts_none _
      | inr he => exact ih hcs copt he

theorem nodeP_child_facts {b : List Nat} {n : TrieNode} {r : List Nat}
    (h : nodeP b = .ok (n, r)) :
    ∀ copt ∈ n.children, slotFacts copt b.length := by
  obtain ⟨kp, r0, hh, hg⟩ := pbind_ok h
  have hr0 : r0.length ≤ b.length := headerP_good.rest_le hh
  dsimp only [nodeTail] at hg
  obtain ⟨pk, r1, hpk, hrest⟩ := pbind_ok hg
  have hr1 : r1.length ≤ r0.length := (pkP_good _).rest_le hpk
  by_cases hk : kp.1 = 0
  · rw [if_pos hk] at hrest
    obtain ⟨v, r2, hv, hp⟩ := pbind_ok hrest
    simp only [ppure, Except.ok.injEq, Prod.mk.injEq] at hp
    obtain ⟨rfl, rfl⟩ := hp
    intro copt hc
    simp only [List.mem_replicate] at hc
    rw [hc.2]
    exact slotFacts_none _
  · rw [if_neg hk] at hrest
    obtain ⟨bits, r2, hbm, hrest2⟩ := pbind_ok hrest
    have hr2 : r2.length ≤ r1.length := bitmapP_good.rest_le hbm
    obtain ⟨cs, r3, hcs, hrest3⟩ := pbind_ok hrest2
    have hfacts := childrenP_facts hcs
    have hcsn : n.children = cs := by
      by_cases hk1 : kp.1 = 1
      · rw [if_pos hk1] at hrest3
        simp only [ppure, Except.ok.injEq, Prod.mk.injEq] at hrest3
        rw [← hrest3.1]
      · rw [if_neg hk1] at hrest3
        obtain ⟨v, r4, hv, hp⟩ := pbind_ok hrest3
        simp only [ppure, Except.ok.injEq, Prod.mk.injEq] at hp
        rw [← hp.1]
    rw [hcsn]
    intro copt hc
    exact slotFacts_mono (by omega) (hfacts copt hc)

theorem decode_node_child_facts {b : List Nat} {n : TrieNode} {c : Nat}
    (h : decode_node b = .ok (n, c)) :
    ∀ copt ∈ n.children, slotFacts copt b.length := by
  obtain ⟨r, hb, rfl⟩ := decode_node_ok_iff.mp h
  exact nodeP_child_facts hb

/-! ## Child hash references of a node

Modelled from the spec: the verifier follows hash children through the
graph and descends into inline children by decoding them in place, so the
hash references of a node include those of its decoded inline children at
any depth. The fuel bounds the inline nesting depth; since every inline
child is strictly shorter than its parent encoding and at most 31 bytes
long, a fuel of 32 is always sufficient. -/

/-- Hash references appearing in the node encoded by the given bytes,
descending through inline children. -/
def bytesRefs : Nat → List Nat → List (List Nat)
  | 0, _ => []
  | fuel + 1, b =>
    match decode_node b with
    | .ok (n, _) =>
      n.children.foldr (fun copt acc =>
        match copt with
        | some (.Hash h) => h :: acc
        | some (.Inline ib) => bytesRefs fuel ib ++ acc
        | none => acc) []
    | .error _ => []

/-- Modelled from the spec: the hash references of a decoded node,
including those inside its inline children. -/
def nodeRefs (n : TrieNode) : List (List Nat) :=
  n.children.foldr (fun copt acc =>
    match copt with
    | some (.Hash h) => h :: acc
    | some (.Inline ib) => bytesRefs 32 ib ++ acc
    | none => acc) []

theorem bytesRefs_short : ∀ (fuel : Nat) (b : List Nat), b.length < 32 →
    bytesRefs fuel b = [] := by
  intro fuel
  induction fuel with
  | zero => intro b _; rfl
  | succ fuel ih =>
    intro b hb
    simp only [bytesRefs]
    cases hd : decode_node b with
    | error e => rfl
    | ok v =>
      obtain ⟨n, c⟩ := v
      have hfacts := decode_node_child_facts hd
      have : ∀ cl : List (Option ChildRef), (∀ copt ∈ cl, slotFacts copt b.length) →
          cl.foldr (fun copt acc =>
            match copt with
            | some (.Hash h) => h :: acc
            | some (.Inline ib) => bytesRefs fuel ib ++ acc
            | none => acc) [] = [] := by
        intro cl
        induction cl with
        | nil => intro _; rfl
        | cons copt rest ihc =>
          intro hall
          have hrest := ihc (fun x hx => hall x (by simp [hx]))
          have hhead := hall copt (by simp)
          simp only [List.foldr_cons, hrest]
          cases copt with
          | none => rfl
          | some ref =>
            cases ref with
            | Hash h =>
              obtain ⟨h33, _⟩ := hhead.1 h rfl
              omega
            | Inline ib =>
              obtain ⟨hlt, _⟩ := hhead.2 ib rfl
              simp [ih ib (by omega)]
      exact this n.children hfacts

/-- For a decoded node, the full reference list equals the fold that the
definition uses with any sufficient fuel; in particular inline children
(at most 31 bytes) contribute nothing beyond their own nested hashes, and
at fuel at least 32 the value is stable. -/
theorem nodeRefs_of_decode {b : List Nat} {n : TrieNode} {c : Nat}
    (h : decode_node b = .ok (n, c)) (fuel : Nat) (hfuel : 32 ≤ fuel) :
    bytesRefs fuel b = nodeRefs n := by
  obtain ⟨fuelp, rfl⟩ : ∃ m, fuel = m + 1 := ⟨fuel - 1, by omega⟩
  simp only [bytesRefs, h, nodeRefs]
  have hfacts := decode_node_child_facts h
  have hgen : ∀ cl : List (Option ChildRef), (∀ copt ∈ cl, slotFacts copt b.length) →
      cl.foldr (fun copt acc =>
        match copt with
        | some (.Hash h) => h :: acc
        | some (.Inline ib) => bytesRefs fuelp ib ++ acc
        | none => acc) [] =
      cl.foldr (fun copt acc =>
        match copt with
        | some (.Hash h) => h :: acc
        | some (.Inline ib) => bytesRefs 32 ib ++ acc
        | none => acc) [] := by
    intro cl
    induction cl with
    | nil => intro _; rfl
    | cons copt rest ihc =>
      intro hall
      have hrest := ihc (fun x hx => hall x (by simp [hx]))
      have hhead := hall copt (by simp)
      simp only [List.foldr_cons, hrest]
      cases copt with
      | none => rfl
      | some ref =>
        cases ref with
        | Hash h => rfl
        | Inline ib =>
          obtain ⟨_, hle⟩ := hhead.2 ib rfl
          simp [bytesRefs_short fuelp ib (by omega), bytesRefs_short 32 ib (by omega)]
  exact hgen n.children hfacts

/-! ## Verifier

Modelled from the spec: for each requested root hash, locate its entry
(`RootNotFound` if absent). From each found root, traverse depth-first:
hash children must be present in the graph (`MissingChild` otherwise);
inline children are decoded in place with no separate graph entry. The
visited set must afterwards equal the full entry set (`UnusedEntry`
otherwise). The traversal is realised as the least fixpoint of a one-step
expansion across present hash references, iterated past stabilisation. -/

/-- Merkle values of all entries of a proof graph. -/
def entryMvs (es : List (List Nat × TrieNode)) : Finset MerkleValue :=
  (es.map (fun p => merkle_value p.1)).toFinset

/-- Merkle values of the entries located for each requested root hash. -/
def rootMvs (es : List (List Nat × TrieNode)) (roots : List (List Nat)) :
    Finset MerkleValue :=
  (roots.filterMap (fun R =>
    (es.find? (fun p => decide (hashBytes p.1 = R))).map
      (fun p => merkle_value p.1))).toFinset

/-- Hash references of a node that are present in the graph, as merkle
values. -/
def presentRefs (es : List (List Nat × TrieNode)) (n : TrieNode) :
    Finset MerkleValue :=
  ((nodeRefs n).filterMap (fun h =>
    if MerkleValue.Hashed h ∈ entryMvs es then some (MerkleValue.Hashed h)
    else none)).toFinset

/-- One step of the traversal: add every present hash reference of every
already-visited entry. -/
def reachStep (es : List (List Nat × TrieNode)) (X : Finset MerkleValue) :
    Finset MerkleValue :=
  X ∪ es.foldr (fun p acc =>
    if merkle_value p.1 ∈ X then presentRefs es p.2 ∪ acc else acc) ∅

/-- The set of merkle values visited by the traversal from all requested
roots: the expansion step iterated past stabilisation. -/
def reachSet (es : List (List Nat × TrieNode)) (roots : List (List Nat)) :
    Finset MerkleValue :=
  (reachStep es)^[es.length + 1] (rootMvs es roots)

theorem mem_presentRefs {es : List (List Nat × TrieNode)} {n : TrieNode}
    {x : MerkleValue} :
    x ∈ presentRefs es n ↔
      ∃ h ∈ nodeRefs n, x = .Hashed h ∧ .Hashed h ∈ entryMvs es := by
  simp only [presentRefs, List.mem_toFinset, List.mem_filterMap]
  constructor
  · rintro ⟨h, hh, hx⟩
    split at hx
    · next hp =>
      simp only [Option.some.injEq] at hx
      subst hx
      exact ⟨h, hh, rfl, hp⟩
    · simp at hx
  · rintro ⟨h, hh, rfl, hp⟩
    exact ⟨h, hh, by rw [if_pos hp]⟩

theorem mem_reachStep {es : List (List Nat × TrieNode)}
    {X : Finset MerkleValue} {x : MerkleValue} :
    x ∈ reachStep es X ↔
      x ∈ X ∨ ∃ p ∈ es, merkle_value p.1 ∈ X ∧ x ∈ presentRefs es p.2 := by
  have hfold : ∀ l : List (List Nat × TrieNode),
      (x ∈ l.foldr (fun p acc =>
        if merkle_value p.1 ∈ X then presentRefs es p.2 ∪ acc else acc) ∅ ↔
      ∃ p ∈ l, merkle_value p.1 ∈ X ∧ x ∈ presentRefs es p.2) := by
    intro l
    induction l with
    | nil => simp
    | cons p rest ih =>
      simp only [List.foldr_cons]
      by_cases hp : merkle_value p.1 ∈ X
      · rw [if_pos hp]
        simp only [Finset.mem_union, ih, List.mem_cons]
        constructor
        · rintro (hx | ⟨q, hq, hqx⟩)
          · exact ⟨p, Or.inl rfl, hp, hx⟩
          · exact ⟨q, Or.inr hq, hqx⟩
        · rintro ⟨q, hq | hq, hqm, hqx⟩
          · subst hq; exact Or.inl hqx
          · exact Or.inr ⟨q, hq, hqm, hqx⟩
      · rw [if_neg hp]
        simp only [ih, List.mem_cons]
        constructor
        · rintro ⟨q, hq, hqm, hqx⟩
          exact ⟨q, Or.inr hq, hqm, hqx⟩
        · rintro ⟨q, hq | hq, hqm, hqx⟩
          · subst hq; exact absurd hqm hp
          · exact ⟨q, hq, hqm, hqx⟩
  simp only [reachStep, Finset.mem_union, hfold]

theorem subset_reachStep (es : List (List Nat × TrieNode))
    (X : Finset MerkleValue) : X ⊆ reachStep es X :=
  Finset.subset_union_left

theorem reachStep_bound {es : List (List Nat × TrieNode)}
    {X : Finset MerkleValue} (hX : X ⊆ entryMvs es) :
    reachStep es X ⊆ entryMvs es := by
  intro x hx
  rcases mem_reachStep.mp hx with hx | ⟨p, _, _, hpr⟩
  · exact hX hx
  · obtain ⟨h, _, rfl, hp⟩ := mem_presentRefs.mp hpr
    exact hp

theorem reachStep_mono {es : List (List Nat × TrieNode)}
    {X Y : Finset MerkleValue} (hXY : X ⊆ Y) :
    reachStep es X ⊆ reachStep es Y := by
  intro x hx
  rcases mem_reachStep.mp hx with hx | ⟨p, hp, hpm, hpr⟩
  · exact subset_reachStep es Y (hXY hx)
  · exact mem_reachStep.mpr (Or.inr ⟨p, hp, hXY hpm, hpr⟩)

/-! ### Generic stabilisation of an inflationary bounded step function -/

theorem iterate_invariant {α : Type} [DecidableEq α]
    {f : Finset α → Finset α} {U : Finset α}
    (hbound : ∀ X, X ⊆ U → f X ⊆ U) {X0 : Finset α} (hX0 : X0 ⊆ U) :
    ∀ k, f^[k] X0 ⊆ U := by
  intro k
  induction k with
  | zero => exact hX0
  | succ k ih =>
    rw [Function.iterate_succ_apply']
    exact hbound _ ih

theorem iterate_step_eq {α : Type} {f : α → α} {x : α} {k : Nat}
    (heq : f^[k + 1] x = f^[k] x) : f^[k + 2] x = f^[k + 1] x := by
  have h2 := congrArg f heq
  calc f^[k + 2] x = f (f^[k + 1] x) := Function.iterate_succ_apply' f (k + 1) x
    _ = f (f^[k] x) := h2
    _ = f^[k + 1] x := (Function.iterate_succ_apply' f k x).symm

theorem iterate_fix_aux {α : Type} [DecidableEq α]
    {f : Finset α → Finset α}
    (hmono : ∀ X, X ⊆ f X) (X0 : Finset α) :
    ∀ k, f^[k + 1] X0 = f^[k] X0 ∨ X0.card + k ≤ (f^[k] X0).card := by
  intro k
  induction k with
  | zero => exact Or.inr (by simp)
  | succ k ih =>
    rcases ih with heq | hcard
    · exact Or.inl (iterate_step_eq heq)
    · by_cases heq : f^[k + 1] X0 = f^[k] X0
      · exact Or.inl (iterate_step_eq heq)
      · right
        have hss : f^[k] X0 ⊂ f^[k + 1] X0 := by
          rw [Function.iterate_succ_apply']
          exact (hmono _).ssubset_of_ne (by
            rw [Function.iterate_succ_apply'] at heq
            exact fun h => heq h.symm)
        have := Finset.card_lt_card hss
        omega

theorem iterate_stab {α : Type} [DecidableEq α]
    {f : Finset α → Finset α} (U : Finset α)
    (hmono : ∀ X, X ⊆ f X) (hbound : ∀ X, X ⊆ U → f X ⊆ U)
    {X0 : Finset α} (hX0 : X0 ⊆ U) :
    f (f^[U.card] X0) = f^[U.card] X0 := by
  rcases iterate_fix_aux hmono X0 U.card with heq | hcard
  · exact (Function.iterate_succ_apply' f U.card X0).symm.trans heq
  · have hsub : f^[U.card] X0 ⊆ U := iterate_invariant hbound hX0 U.card
    have hle : U.card ≤ (f^[U.card] X0).card := by omega
    have hequ : f^[U.card] X0 = U := Finset.eq_of_subset_of_card_le hsub hle
    rw [hequ]
    exact Finset.Subset.antisymm (hbound U le_rfl) (hmono U)

theorem iterate_stab_ge {α : Type} [DecidableEq α]
    {f : Finset α → Finset α} (U : Finset α)
    (hmono : ∀ X, X ⊆ f X) (hbound : ∀ X, X ⊆ U → f X ⊆ U)
    {X0 : Finset α} (hX0 : X0 ⊆ U) :
    ∀ m, U.card ≤ m → f^[m] X0 = f^[U.card] X0 := by
  intro m hm
  induction m with
  | zero =>
    have : U.card = 0 := by omega
    rw [this]
  | succ m ih =>
    by_cases hm2 : U.card ≤ m
    · rw [Function.iterate_succ_apply', ih hm2, iterate_stab U hmono hbound hX0]
    · have : U.card = m + 1 := by omega
      rw [this]

/-! ### Properties of the reach set -/

theorem rootMvs_subset (es : List (List Nat × TrieNode))
    (roots : List (List Nat)) : rootMvs es roots ⊆ entryMvs es := by
  intro x hx
  simp only [rootMvs, List.mem_toFinset, List.mem_filterMap] at hx
  obtain ⟨R, _, hx⟩ := hx
  cases hf : es.find? (fun p => decide (hashBytes p.1 = R)) with
  | none => rw [hf] at hx; simp at hx
  | some p =>
    rw [hf] at hx
    simp only [Option.map_some', Option.some.injEq] at hx
    subst hx
    have hmem : p ∈ es := List.mem_of_find?_eq_some hf
    simp only [entryMvs, List.mem_toFinset, List.mem_map]
    exact ⟨p, hmem, rfl⟩

theorem entryMvs_card_le (es : List (List Nat × TrieNode)) :
    (entryMvs es).card ≤ es.length := by
  calc (entryMvs es).card ≤ (es.map (fun p => merkle_value p.1)).length :=
        List.toFinset_card_le _
    _ = es.length := by simp

theorem reachSet_subset (es : List (List Nat × TrieNode))
    (roots : List (List Nat)) : reachSet es roots ⊆ entryMvs es :=
  iterate_invariant (fun _ => reachStep_bound) (rootMvs_subset es roots) _

theorem reachSet_fixed (es : List (List Nat × TrieNode))
    (roots : List (List Nat)) :
    reachStep es (reachSet es roots) = reachSet es roots := by
  have hcard := entryMvs_card_le es
  unfold reachSet
  rw [iterate_stab_ge (entryMvs es) (fun X => subset_reachStep es X)
    (fun X => reachStep_bound) (rootMvs_subset es roots) (es.length + 1)
    (by omega)]
  exact iterate_stab (entryMvs es) (fun X => subset_reachStep es X)
    (fun X => reachStep_bound) (rootMvs_subset es roots)

theorem rootMvs_subset_reachSet (es : List (List Nat × TrieNode))
    (roots : List (List Nat)) : rootMvs es roots ⊆ reachSet es roots := by
  unfold reachSet
  generalize es.length + 1 = k
  induction k with
  | zero => simp
  | succ k ih =>
    rw [Function.iterate_succ_apply']
    exact ih.trans (subset_reachStep es _)

theorem reachSet_closed {es : List (List Nat × TrieNode)}
    {roots : List (List Nat)} {p : List Nat × TrieNode} {h : List Nat}
    (hp : p ∈ es) (hpm : merkle_value p.1 ∈ reachSet es roots)
    (hh : h ∈ nodeRefs p.2) (hpresent : MerkleValue.Hashed h ∈ entryMvs es) :
    MerkleValue.Hashed h ∈ reachSet es roots := by
  rw [← reachSet_fixed es roots]
  exact mem_reachStep.mpr
    (Or.inr ⟨p, hp, hpm, mem_presentRefs.mpr ⟨h, hh, rfl, hpresent⟩⟩)

/-- Modelled from the spec: `verify(graph, roots)` — `Empty` when zero
entries were supplied while at least one root is requested; `RootNotFound`
when some requested root hash has no entry; `MissingChild` when a reachable
entry hash-references an absent entry; `UnusedEntry` when some entry is not
visited by the traversal; on success, the visited set. -/
def verify (es : List (List Nat × TrieNode)) (roots : List (List Nat)) :
    Except PError (Finset MerkleValue) :=
  if es.isEmpty then
    if roots.isEmpty then .ok ∅ else .error (.Graph .Empty)
  else if ∀ R ∈ roots, ∃ p ∈ es, hashBytes p.1 = R then
    if ∃ p ∈ es, merkle_value p.1 ∈ reachSet es roots ∧
        ∃ h ∈ nodeRefs p.2, MerkleValue.Hashed h ∉ entryMvs es then
      .error (.Graph .MissingChild)
    else if ∀ p ∈ es, merkle_value p.1 ∈ reachSet es roots then
      .ok (reachSet es roots)
    else .error (.Graph .UnusedEntry)
  else .error (.Graph .RootNotFound)

/-- Modelled from the spec: the configuration of a decode call carries only
the raw proof byte buffer; expected root hashes are supplied separately
from decoding. -/
structure Config where
  proof : List Nat

/-- Modelled from the spec: `decode_and_verify_proof` — decode the proof
buffer of the configuration into the proof graph (root hashes are checked
separately, after decoding). -/
def decode_and_verify_proof (c : Config) :
    Except PError (List (List Nat × TrieNode)) :=
  buildEntries c.proof

/-- Modelled from the spec: full pipeline — build the proof graph from the
buffer, then verify it against the requested roots. -/
def decodeAndVerify (b : List Nat) (roots : List (List Nat)) :
    Except PError (Finset MerkleValue) :=
  match buildEntries b with
  | .ok es => verify es roots
  | .error e => .error e

/-! ## Reference tries and honest proof generation

Modelled from the spec: a trie built from a known key-to-value mapping.
Each node carries a partial key (a nibble sequence), an optional storage
value and sixteen child slots. An honest proof for it is the set of node
encodings reachable from the root (every hash-referenced descendant needs
its own entry for the verifier to traverse it; inline children are
embedded in their parent and need no entry). -/

/-- Modelled from the spec: a reference trie node: partial key, optional
value, sixteen optional children (one per nibble value). -/
inductive Trie where
  | node (pk : List Nat) (val : Option (List Nat)) (cs : List (Option Trie))

/-- Pack nibbles two per byte, high nibble first, zero-padding an odd
tail. -/
def packNibbles : List Nat → List Nat
  | [] => []
  | [a] => [a * 16]
  | a :: b :: t => (a * 16 + b) :: packNibbles t

/-- A 16-bit little-endian bit list as a natural number. -/
def bitsToNat (bs : List Bool) : Nat :=
  bs.foldr (fun bit acc => (if bit then 1 else 0) + 2 * acc) 0

/-- Header byte(s) for a node of the given kind and partial-key length. -/
def encodeHeader (kind pklen : Nat) : List Nat :=
  if pklen < 63 then [kind * 64 + pklen] else [kind * 64 + 63, pklen - 63]

/-- Two little-endian length bytes. -/
def encodeLen2 (l : Nat) : List Nat := [l % 256, l / 256]

/-- Encoded storage-value slot (tag 0: plain value with two length
bytes). -/
def encodeValueSlot : Option (List Nat) → List Nat
  | none => []
  | some v => 0 :: (encodeLen2 v.length ++ v)

/-- Encoded child slot: a length byte then the hash or the inline bytes. -/
def childSlotBytes : ChildRef → List Nat
  | .Hash h => 32 :: h
  | .Inline b => b.length :: b

/-- The child reference denoting a child with the given encoding: inline
when short, hash otherwise. -/
def refOfBytes (b : List Nat) : ChildRef :=
  match merkle_value b with
  | .Hashed h => .Hash h
  | .Inline ib => .Inline ib

/-- Concatenated encoded slots of a 16-slot child list. -/
def slotsBytes : List (Option ChildRef) → List Nat
  | [] => []
  | none :: rest => slotsBytes rest
  | some ref :: rest => childSlotBytes ref ++ slotsBytes rest

mutual

/-- Modelled from the spec: the self-delimiting encoding of a trie node:
header (kind and partial-key length), packed partial key, then for branch
kinds the 16-bit child bitmap and the child slots in nibble order, then
the storage value for leaf and branch-with-value kinds. -/
def Trie.encode : Trie → List Nat
  | .node pk val cs =>
    if cs.all (fun o => o.isNone) then
      encodeHeader 0 pk.length ++ packNibbles pk ++ encodeValueSlot val
    else
      encodeHeader (if val.isSome then 2 else 1) pk.length ++ packNibbles pk ++
        encodeLen2 (bitsToNat (cs.map (fun o => o.isSome))) ++ encodeSlots cs ++
        encodeValueSlot val

/-- Encoded slots of the present children of a node. -/
def encodeSlots : List (Option Trie) → List Nat
  | [] => []
  | none :: rest => encodeSlots rest
  | some c :: rest => childSlotBytes (refOfBytes (Trie.encode c)) ++ encodeSlots rest

end

mutual

/-- Modelled from the spec: well-formedness of a reference trie: sixteen
child slots per node, partial keys of at most 64 nibbles with each nibble
below 16, and no node with neither value nor child. -/
def Trie.wf : Trie → Bool
  | .node pk val cs =>
    (cs.length == 16) && decide (pk.length ≤ 64) &&
      pk.all (fun x => decide (x < 16)) &&
      (val.isSome || !(cs.all (fun o => o.isNone))) && childrenWf cs

/-- Well-formedness of a child-slot list. -/
def childrenWf : List (Option Trie) → Bool
  | [] => true
  | none :: rest => childrenWf rest
  | some c :: rest => Trie.wf c && childrenWf rest

end

mutual

/-- All nodes of a trie (the node itself and all descendants). -/
def Trie.allNodes : Trie → List Trie
  | .node pk val cs => Trie.node pk val cs :: childrenNodes cs

/-- All nodes under a child-slot list. -/
def childrenNodes : List (Option Trie) → List Trie
  | [] => []
  | none :: rest => childrenNodes rest
  | some c :: rest => Trie.allNodes c ++ childrenNodes rest

end

mutual

/-- Modelled from the spec: encodings of all hash-referenced descendants
of a node — the graph entries an honest proof must contain besides the
root, since inline children are embedded in their parent. -/
def Trie.hashedSub : Trie → List (List Nat)
  | .node pk val cs => childrenHashed cs

/-- Hash-referenced descendant encodings under a child-slot list. -/
def childrenHashed : List (Option Trie) → List (List Nat)
  | [] => []
  | none :: rest => childrenHashed rest
  | some c :: rest =>
    (if 32 ≤ (Trie.encode c).length then [Trie.encode c] else []) ++
      (Trie.hashedSub c ++ childrenHashed rest)

end

/-- The one-level decoded view of a trie node. -/
def Trie.toNode : Trie → TrieNode
  | .node pk val cs =>
    ⟨pk, cs.map (fun o => o.map (fun c => refOfBytes c.encode)), val.map .Plain⟩

/-- Modelled from the spec: ground-truth lookup in the reference trie,
walking from the root and consuming nibbles of the key against successive
partial keys and children. -/
def Trie.lookup : Trie → List Nat → Option (List Nat)
  | .node pk val cs, key =>
    if pk.isPrefixOf key then
      match hk : key.drop pk.length with
      | [] => val
      | nib :: rest =>
        match cs.getD nib none with
        | some c => Trie.lookup c rest
        | none => none
    else none
termination_by t key => key.length
decreasing_by
  have hlen := congrArg List.length hk
  simp only [List.length_drop, List.length_cons] at hlen
  omega

/-- First-occurrence deduplication of byte strings by merkle value. -/
def dedupeMv : List (List Nat) → List MerkleValue → List (List Nat)
  | [], _ => []
  | e :: es, seen =>
    if merkle_value e ∈ seen then dedupeMv es seen
    else e :: dedupeMv es (merkle_value e :: seen)

/-- Modelled from the spec: the entry list of the honest proof of a trie:
its root encoding followed by the encodings of all hash-referenced
descendants, deduplicated by merkle value. -/
def Trie.entriesList (t : Trie) : List (List Nat) :=
  dedupeMv (t.encode :: t.hashedSub) []

/-- Modelled from the spec: the honest proof buffer — the concatenation of
the entry encodings, with no outer length prefix. -/
def Trie.proofBytes (t : Trie) : List Nat := t.entriesList.flatten

/-- The root hash committing to the trie. -/
def Trie.rootHash (t : Trie) : List Nat := hashBytes t.encode

/-- Strong induction principle for reference tries. -/
theorem Trie.strongInd (P : Trie → Prop)
    (h : ∀ pk val cs, (∀ c, some c ∈ cs → P c) → P (.node pk val cs)) :
    ∀ t, P t := by
  have hsize : ∀ n t, sizeOf t ≤ n → P t := by
    intro n
    induction n with
    | zero =>
      intro t ht
      cases t with
      | node pk val cs => simp [Trie.node.sizeOf_spec] at ht
    | succ n ih =>
      intro t ht
      cases t with
      | node pk val cs =>
        refine h pk val cs (fun c hc => ih c ?_)
        have h1 : sizeOf (some c) < sizeOf cs := List.sizeOf_lt_of_mem hc
        have h2 : sizeOf (some c) = 1 + sizeOf c := by simp
        have h3 : sizeOf (Trie.node pk val cs) = 1 + sizeOf pk + sizeOf val + sizeOf cs := by
          simp [Trie.node.sizeOf_spec]
        omega
  intro t
  exact hsize (sizeOf t) t le_rfl

/-! ## Encode/decode round trip -/

theorem packNibbles_length (pk : List Nat) :
    (packNibbles pk).length = (pk.length + 1) / 2 := by
  induction pk using packNibbles.induct with
  | case1 => simp [packNibbles]
  | case2 a => simp [packNibbles]
  | case3 a b t ih =>
    simp only [packNibbles, List.length_cons, ih]
    omega

theorem unpack_cons (x : Nat) (l : List Nat) :
    unpackNibbles (x :: l) = x / 16 :: x % 16 :: unpackNibbles l := rfl

theorem unpack_packNibbles (pk : List Nat) (hpk : ∀ x ∈ pk, x < 16) :
    (unpackNibbles (packNibbles pk)).take pk.length = pk := by
  induction pk using packNibbles.induct with
  | case1 => rfl
  | case2 a =>
    have ha : a < 16 := hpk a (by simp)
    simp only [packNibbles, unpack_cons, List.length_cons, List.length_nil,
      List.take_succ_cons, List.take_zero, List.cons.injEq, and_true]
    omega
  | case3 a b t ih =>
    have ha : a < 16 := hpk a (by simp)
    have hb : b < 16 := hpk b (by simp)
    simp only [packNibbles, unpack_cons, List.length_cons, List.take_succ_cons,
      List.cons.injEq]
    refine ⟨by omega, by omega, ih (fun x hx => hpk x (by simp [hx]))⟩

theorem natToBits_bitsToNat (bs : List Bool) :
    natToBits bs.length (bitsToNat bs) = bs := by
  induction bs with
  | nil => rfl
  | cons bit rest ih =>
    have hmod : ((if bit then 1 else 0) + 2 * bitsToNat rest) % 2 =
        (if bit then 1 else 0) := by
      cases bit <;> simp <;> omega
    have hdiv : ((if bit then 1 else 0) + 2 * bitsToNat rest) / 2 =
        bitsToNat rest := by
      cases bit <;> simp <;> omega
    have hbt : bitsToNat (bit :: rest) =
        (if bit then 1 else 0) + 2 * bitsToNat rest := rfl
    simp only [List.length_cons, natToBits, hbt, hmod, hdiv, ih,
      List.cons.injEq, and_true]
    cases bit <;> simp

theorem readByte_cons (x : Nat) (l : List Nat) :
    readByte (x :: l) = .ok (x, l) := rfl

theorem readN_exact {xs : List Nat} {k : Nat} (h : xs.length = k)
    (rest : List Nat) : readN k (xs ++ rest) = .ok (xs, rest) := by
  subst h
  have hle : xs.length ≤ (xs ++ rest).length := by
    simp only [List.length_append]
    omega
  simp only [readN, if_pos hle, List.take_append_of_le_length le_rfl,
    List.drop_append_of_le_length le_rfl, List.take_length, List.drop_length,
    List.nil_append]

theorem headerP_roundtrip (kind pklen : Nat) (hk : kind ≤ 2) (hl : pklen ≤ 64)
    (rest : List Nat) :
    headerP (encodeHeader kind pklen ++ rest) = .ok ((kind, pklen), rest) := by
  by_cases h63 : pklen < 63
  · simp only [encodeHeader, if_pos h63, List.cons_append, List.nil_append,
      headerP, pbind, readByte, headerTail]
    rw [if_neg (by omega), if_neg (by omega)]
    simp only [ppure, Except.ok.injEq, Prod.mk.injEq]
    exact ⟨⟨by omega, by omega⟩, trivial⟩
  · simp only [encodeHeader, if_neg h63, List.cons_append, List.nil_append,
      headerP, pbind, readByte, headerTail]
    rw [if_neg (by omega), if_pos (by omega)]
    simp only [pbind, readByte]
    rw [if_pos (by omega)]
    simp only [ppure, Except.ok.injEq, Prod.mk.injEq]
    exact ⟨⟨by omega, by omega⟩, trivial⟩

theorem pkP_roundtrip {pk : List Nat} (hlt : ∀ x ∈ pk, x < 16)
    (rest : List Nat) :
    pkP pk.length (packNibbles pk ++ rest) = .ok (pk, rest) := by
  have hrd := readN_exact (packNibbles_length pk) rest
  simp only [pkP, pbind, hrd, ppure, Except.ok.injEq, Prod.mk.injEq]
  exact ⟨unpack_packNibbles pk hlt, trivial⟩

theorem bitmapP_roundtrip (n : Nat) (rest : List Nat) :
    bitmapP (encodeLen2 n ++ rest) = .ok (natToBits 16 n, rest) := by
  simp only [encodeLen2, List.cons_append, List.nil_append, bitmapP, pbind,
    readByte, ppure, Except.ok.injEq, Prod.mk.injEq]
  rw [Nat.mod_add_div]
  exact ⟨rfl, trivial⟩

/-- Well-formedness of a child slot relative to the codec: hashes are 32
bytes, inline encodings at most 31. -/
def refWf : Option ChildRef → Prop
  | none => True
  | some (.Hash h) => h.length = 32
  | some (.Inline b) => b.length ≤ 31

theorem refWf_refOfBytes (b : List Nat) : refWf (some (refOfBytes b)) := by
  unfold refOfBytes merkle_value
  by_cases hlen : b.length < 32
  · rw [if_pos hlen]
    show b.length ≤ 31
    omega
  · rw [if_neg hlen]
    exact hashBytes_length b

theorem childSlotP_roundtrip {ref : ChildRef} (h : refWf (some ref))
    (rest : List Nat) :
    childSlotP (childSlotBytes ref ++ rest) = .ok (ref, rest) := by
  cases ref with
  | Hash hh =>
    have h32 : hh.length = 32 := h
    simp [childSlotBytes, childSlotP, pbind, readByte, readN_exact h32 rest, ppure]
  | Inline b =>
    have h31 : b.length ≤ 31 := h
    have hne : ¬ (b.length = 32) := by omega
    simp [childSlotBytes, childSlotP, pbind, readByte, hne, h31,
      readN_exact rfl rest, ppure]

theorem childrenP_roundtrip {slots : List (Option ChildRef)}
    (hwf : ∀ s ∈ slots, refWf s) (rest : List Nat) :
    childrenP (slots.map (fun o => o.isSome)) (slotsBytes slots ++ rest) =
      .ok (slots, rest) := by
  induction slots with
  | nil => simp [childrenP, slotsBytes, ppure]
  | cons s slots ih =>
    have hrest := ih (fun x hx => hwf x (by simp [hx]))
    cases s with
    | none =>
      simp only [List.map_cons, Option.isSome_none]
      dsimp only [childrenP]
      rw [if_neg (by simp)]
      simp only [slotsBytes, pbind, hrest, ppure]
    | some ref =>
      have hs := childSlotP_roundtrip (hwf (some ref) (by simp))
        (slotsBytes slots ++ rest)
      simp only [List.map_cons, Option.isSome_some]
      dsimp only [childrenP]
      rw [if_pos rfl]
      simp only [slotsBytes, List.append_assoc, pbind, hs, hrest, ppure]

theorem valueP_roundtrip (v : List Nat) (rest : List Nat) :
    valueP (encodeValueSlot (some v) ++ rest) = .ok (.Plain v, rest) := by
  simp only [encodeValueSlot, encodeLen2, List.cons_append, List.nil_append,
    List.append_assoc, valueP, pbind, readByte, if_true]
  simp only [pbind, readByte, Nat.mod_add_div, readN_exact rfl rest, ppure]

theorem Trie.wf_node {pk : List Nat} {val : Option (List Nat)}
    {cs : List (Option Trie)} (h : Trie.wf (.node pk val cs) = true) :
    cs.length = 16 ∧ pk.length ≤ 64 ∧ (∀ x ∈ pk, x < 16) ∧
      (cs.all (fun o => o.isNone) = true → val.isSome = true) ∧
      childrenWf cs = true := by
  have h2 := h
  simp only [Trie.wf, Bool.and_eq_true, beq_iff_eq, decide_eq_true_eq,
    List.all_eq_true, Bool.or_eq_true, Bool.not_eq_true'] at h2
  obtain ⟨⟨⟨⟨h16, h64⟩, hnib⟩, hval⟩, hcwf⟩ := h2
  refine ⟨h16, h64, fun x hx => hnib x hx, ?_, hcwf⟩
  intro hall
  rcases hval with hval | hval
  · exact hval
  · rw [hall] at hval
    exact absurd hval (by simp)

theorem map_of_all_none {α β : Type} (f : α → β) {cs : List (Option α)}
    (h : cs.all (fun o => o.isNone) = true) :
    cs.map (Option.map f) = List.replicate cs.length none := by
  induction cs with
  | nil => rfl
  | cons o rest ih =>
    simp only [List.all_cons, Bool.and_eq_true] at h
    cases o with
    | none => simp [List.replicate, ih h.2]
    | some c => simp at h

theorem encodeSlots_eq_slotsBytes (cs : List (Option Trie)) :
    encodeSlots cs =
      slotsBytes (cs.map (Option.map (fun c => refOfBytes c.encode))) := by
  induction cs with
  | nil => rfl
  | cons o rest ih => cases o <;> simp [encodeSlots, slotsBytes, ih]

theorem map_isSome_map (cs : List (Option Trie)) (f : Trie → ChildRef) :
    (cs.map (Option.map f)).map (fun o => o.isSome) =
      cs.map (fun o => o.isSome) := by
  induction cs with
  | nil => rfl
  | cons o rest ih => cases o <;> simp [ih]

theorem refWf_slots (cs : List (Option Trie)) :
    ∀ s ∈ cs.map (Option.map (fun c => refOfBytes c.encode)), refWf s := by
  intro s hs
  simp only [List.mem_map] at hs
  obtain ⟨o, _, rfl⟩ := hs
  cases o with
  | none => trivial
  | some c => exact refWf_refOfBytes _

theorem nodeP_roundtrip {pk : List Nat} {val : Option (List Nat)}
    {cs : List (Option Trie)} (hwf : Trie.wf (.node pk val cs) = true)
    (ext : List Nat) :
    nodeP (Trie.encode (.node pk val cs) ++ ext) =
      .ok (Trie.toNode (.node pk val cs), ext) := by
  obtain ⟨h16, h64, hnib, hleaf, hcwf⟩ := Trie.wf_node hwf
  by_cases hnone : cs.all (fun o => o.isNone) = true
  · obtain ⟨v, rfl⟩ : ∃ v, val = some v := by
      cases val with
      | none => exact absurd (hleaf hnone) (by simp)
      | some v => exact ⟨v, rfl⟩
    have henc : Trie.encode (.node pk (some v) cs) =
        encodeHeader 0 pk.length ++ packNibbles pk ++ encodeValueSlot (some v) := by
      simp [Trie.encode, hnone]
    rw [henc]
    simp only [List.append_assoc]
    simp only [nodeP, pbind, headerP_roundtrip 0 pk.length (by omega) h64]
    simp only [nodeTail, pbind, pkP_roundtrip hnib, if_true]
    simp only [pbind, valueP_roundtrip, ppure, Except.ok.injEq, Prod.mk.injEq]
    refine ⟨?_, trivial⟩
    simp only [Trie.toNode, TrieNode.mk.injEq, Option.map_some']
    simp [map_of_all_none _ hnone, h16]
  · have henc : Trie.encode (.node pk val cs) =
        encodeHeader (if val.isSome then 2 else 1) pk.length ++ packNibbles pk ++
          encodeLen2 (bitsToNat (cs.map (fun o => o.isSome))) ++ encodeSlots cs ++
          encodeValueSlot val := by
      simp [Trie.encode, hnone]
    have hkind : (if val.isSome then 2 else 1) ≤ 2 := by
      cases val <;> simp
    have hbits : natToBits 16 (bitsToNat (cs.map (fun o => o.isSome))) =
        cs.map (fun o => o.isSome) := by
      have := natToBits_bitsToNat (cs.map (fun o => o.isSome))
      rwa [List.length_map, h16] at this
    have hslots := encodeSlots_eq_slotsBytes cs
    rw [henc]
    simp only [List.append_assoc]
    simp only [nodeP, pbind,
      headerP_roundtrip (if val.isSome then 2 else 1) pk.length hkind h64]
    simp only [nodeTail, pbind, pkP_roundtrip hnib]
    have hk0 : ¬ ((if val.isSome then 2 else 1) = 0) := by
      cases val <;> simp
    rw [if_neg hk0]
    simp only [pbind, bitmapP_roundtrip, hbits]
    rw [hslots, ← map_isSome_map cs (fun c => refOfBytes c.encode)]
    simp only [pbind, childrenP_roundtrip (refWf_slots cs)]
    cases val with
    | none =>
      rw [if_pos (by simp)]
      simp only [ppure, encodeValueSlot, List.nil_append, Except.ok.injEq,
        Prod.mk.injEq, Trie.toNode, TrieNode.mk.injEq, Option.map_none']
    | some v =>
      rw [if_neg (by simp)]
      simp only [pbind, valueP_roundtrip, ppure, Except.ok.injEq, Prod.mk.injEq,
        Trie.toNode, TrieNode.mk.injEq, Option.map_some']

theorem decode_node_roundtrip {t : Trie} (hwf : t.wf = true) (ext : List Nat) :
    decode_node (t.encode ++ ext) = .ok (t.toNode, t.encode.length) := by
  cases t with
  | node pk val cs =>
    have h := nodeP_roundtrip hwf ext
    simp only [decode_node, h, List.length_append]
    simp

theorem decode_node_exact {t : Trie} (hwf : t.wf = true) :
    decode_node t.encode = .ok (t.toNode, t.encode.length) := by
  have h := decode_node_roundtrip hwf []
  rwa [List.append_nil] at h

theorem decodedNode_encode {t : Trie} (hwf : t.wf = true) :
    decodedNode t.encode = t.toNode := by
  simp [decodedNode, decode_node_exact hwf]

/-! ## Structure of honest proofs -/

theorem encodeHeader_ne_nil (kind pklen : Nat) : encodeHeader kind pklen ≠ [] := by
  unfold encodeHeader
  split <;> simp

theorem Trie.encode_ne_nil (t : Trie) : t.encode ≠ [] := by
  cases t with
  | node pk val cs =>
    show Trie.encode (.node pk val cs) ≠ []
    rw [Trie.encode]
    split <;>
      simp only [List.append_assoc, ne_eq, List.append_eq_nil, not_and] <;>
      intro h <;> exact absurd h (encodeHeader_ne_nil _ _)

theorem childrenWf_mem {cs : List (Option Trie)} (h : childrenWf cs = true)
    {c : Trie} (hc : some c ∈ cs) : Trie.wf c = true := by
  induction cs with
  | nil => simp at hc
  | cons o rest ih =>
    rcases List.mem_cons.mp hc with he | he
    · subst he
      rw [childrenWf] at h
      simp only [Bool.and_eq_true] at h
      exact h.1
    · refine ih ?_ he
      cases o with
      | none => rwa [childrenWf] at h
      | some c2 =>
        rw [childrenWf] at h
        simp only [Bool.and_eq_true] at h
        exact h.2

theorem Trie.self_mem_allNodes (t : Trie) : t ∈ t.allNodes := by
  cases t with
  | node pk val cs =>
    rw [Trie.allNodes]
    exact List.mem_cons_self _ _

theorem mem_childrenNodes {cs : List (Option Trie)} {m : Trie} :
    m ∈ childrenNodes cs ↔ ∃ c, some c ∈ cs ∧ m ∈ c.allNodes := by
  induction cs with
  | nil => simp [childrenNodes]
  | cons o rest ih =>
    cases o with
    | none =>
      rw [childrenNodes]
      simp only [ih]
      constructor
      · rintro ⟨c, hc, hm⟩
        exact ⟨c, by simp [hc], hm⟩
      · rintro ⟨c, hc, hm⟩
        rcases List.mem_cons.mp hc with he | he
        · exact absurd he (by simp)
        · exact ⟨c, he, hm⟩
    | some c0 =>
      rw [childrenNodes]
      simp only [List.mem_append, ih]
      constructor
      · rintro (hm | ⟨c, hc, hm⟩)
        · exact ⟨c0, by simp, hm⟩
        · exact ⟨c, by simp [hc], hm⟩
      · rintro ⟨c, hc, hm⟩
        rcases List.mem_cons.mp hc with he | he
        · simp only [Option.some.injEq] at he
          subst he
          exact Or.inl hm
        · exact Or.inr ⟨c, he, hm⟩

theorem Trie.allNodes_elim {t m : Trie} (hm : m ∈ t.allNodes) :
    m = t ∨ ∃ c ∈ t.allNodes, m ∈ c.allNodes ∧ sizeOf c < sizeOf t := by
  cases t with
  | node pk val cs =>
    rw [Trie.allNodes] at hm
    rcases List.mem_cons.mp hm with he | he
    · exact Or.inl he
    · obtain ⟨c, hc, hmc⟩ := mem_childrenNodes.mp he
      refine Or.inr ⟨c, ?_, hmc, ?_⟩
      · rw [Trie.allNodes]
        exact List.mem_cons_of_mem _ (mem_childrenNodes.mpr ⟨c, hc, c.self_mem_allNodes⟩)
      · have h1 : sizeOf (some c) < sizeOf cs := List.sizeOf_lt_of_mem hc
        have h2 : sizeOf (some c) = 1 + sizeOf c := by simp
        have h3 : sizeOf (Trie.node pk val cs) =
            1 + sizeOf pk + sizeOf val + sizeOf cs := by simp
        omega

theorem Trie.wf_allNodes {t : Trie} (hwf : t.wf = true) :
    ∀ m ∈ t.allNodes, m.wf = true := by
  induction t using Trie.strongInd with
  | h pk val cs ih =>
    intro m hm
    rw [Trie.allNodes] at hm
    rcases List.mem_cons.mp hm with he | he
    · subst he; exact hwf
    · obtain ⟨c, hc, hmc⟩ := mem_childrenNodes.mp he
      have hcwf : Trie.wf c = true :=
        childrenWf_mem (Trie.wf_node hwf).2.2.2.2 hc
      exact ih c hc hcwf m hmc

theorem Trie.allNodes_child {t m c : Trie} (hm : m ∈ t.allNodes)
    {pk : List Nat} {val : Option (List Nat)} {cs : List (Option Trie)}
    (hmeq : m = .node pk val cs) (hc : some c ∈ cs) : c ∈ t.allNodes := by
  induction t using Trie.strongInd with
  | h pk2 val2 cs2 ih =>
    rw [Trie.allNodes] at hm ⊢
    rcases List.mem_cons.mp hm with he | he
    · subst hmeq
      refine List.mem_cons_of_mem _ (mem_childrenNodes.mpr ⟨c, ?_, c.self_mem_allNodes⟩)
      have := he.symm
      simp only [Trie.node.injEq] at this
      rw [this.2.2]
      exact hc
    · obtain ⟨c0, hc0, hmc0⟩ := mem_childrenNodes.mp he
      exact List.mem_cons_of_mem _
        (mem_childrenNodes.mpr ⟨c0, hc0, ih c0 hc0 hmc0⟩)

/-! ### Deduplication lemmas -/

theorem dedupeMv_subset {l : List (List Nat)} {seen : List MerkleValue} :
    ∀ x ∈ dedupeMv l seen, x ∈ l := by
  induction l generalizing seen with
  | nil => intro x hx; simp [dedupeMv] at hx
  | cons e rest ih =>
    intro x hx
    rw [dedupeMv] at hx
    split at hx
    · exact List.mem_cons_of_mem _ (ih x hx)
    · rcases List.mem_cons.mp hx with he | he
      · subst he; exact List.mem_cons_self _ _
      · exact List.mem_cons_of_mem _ (ih x he)

theorem dedupeMv_covers {l : List (List Nat)} (seen : List MerkleValue) :
    ∀ e ∈ l, merkle_value e ∈ seen ∨
      ∃ e2 ∈ dedupeMv l seen, merkle_value e2 = merkle_value e := by
  induction l generalizing seen with
  | nil => intro e he; simp at he
  | cons e0 rest ih =>
    intro e he
    rw [dedupeMv]
    rcases List.mem_cons.mp he with he0 | he0
    · subst he0
      by_cases hs : merkle_value e ∈ seen
      · exact Or.inl hs
      · rw [if_neg hs]
        exact Or.inr ⟨e, List.mem_cons_self _ _, rfl⟩
    · by_cases hs : merkle_value e0 ∈ seen
      · rw [if_pos hs]
        exact ih seen e he0
      · rw [if_neg hs]
        rcases ih (merkle_value e0 :: seen) e he0 with hseen | ⟨e2, he2, hmv⟩
        · rcases List.mem_cons.mp hseen with hh | hh
          · exact Or.inr ⟨e0, List.mem_cons_self _ _, hh.symm⟩
          · exact Or.inl hh
        · exact Or.inr ⟨e2, List.mem_cons_of_mem _ he2, hmv⟩

theorem dedupeMv_nodup {l : List (List Nat)} (seen : List MerkleValue) :
    ((dedupeMv l seen).map merkle_value).Nodup ∧
      ∀ x ∈ (dedupeMv l seen).map merkle_value, x ∉ seen := by
  induction l generalizing seen with
  | nil => simp [dedupeMv]
  | cons e rest ih =>
    rw [dedupeMv]
    by_cases hs : merkle_value e ∈ seen
    · rw [if_pos hs]
      exact ih seen
    · rw [if_neg hs]
      obtain ⟨hnd, hdis⟩ := ih (merkle_value e :: seen)
      simp only [List.map_cons, List.nodup_cons]
      refine ⟨⟨fun hmem => ?_, hnd⟩, ?_⟩
      · exact absurd (List.mem_cons_self _ _) (hdis _ hmem)
      · intro x hx
        rcases List.mem_cons.mp hx with hx0 | hx0
        · subst hx0; exact hs
        · intro hxs
          exact absurd (List.mem_cons_of_mem _ hxs) (hdis x hx0)

theorem entriesList_eq (t : Trie) :
    t.entriesList = t.encode :: dedupeMv t.hashedSub [merkle_value t.encode] := by
  rw [Trie.entriesList, dedupeMv, if_neg (by simp)]

theorem mem_entriesList {t : Trie} {e : List Nat} (he : e ∈ t.entriesList) :
    e = t.encode ∨ e ∈ t.hashedSub := by
  have := dedupeMv_subset e he
  rcases List.mem_cons.mp this with h | h
  · exact Or.inl h
  · exact Or.inr h

theorem entriesList_nodup (t : Trie) :
    (t.entriesList.map merkle_value).Nodup :=
  (dedupeMv_nodup []).1

theorem entriesList_covers {t : Trie} {e : List Nat}
    (he : e = t.encode ∨ e ∈ t.hashedSub) :
    ∃ e2 ∈ t.entriesList, merkle_value e2 = merkle_value e := by
  have hmem : e ∈ t.encode :: t.hashedSub := by
    rcases he with h | h
    · simp [h]
    · exact List.mem_cons_of_mem _ h
  rcases dedupeMv_covers [] e hmem with h | h
  · simp at h
  · exact h

/-! ### Hash-referenced descendants -/

theorem childSlotBytes_refOf_hashed {b : List Nat} (h : 32 ≤ b.length) :
    childSlotBytes (refOfBytes b) = 32 :: hashBytes b := by
  unfold refOfBytes merkle_value
  rw [if_neg (by omega)]
  rfl

theorem childSlotBytes_refOf_inline {b : List Nat} (h : b.length < 32) :
    childSlotBytes (refOfBytes b) = b.length :: b := by
  unfold refOfBytes merkle_value
  rw [if_pos h]
  rfl

theorem encodeSlots_ge {cs : List (Option Trie)} {c : Trie}
    (hc : some c ∈ cs) (hlen : 32 ≤ c.encode.length) :
    33 ≤ (encodeSlots cs).length := by
  induction cs with
  | nil => simp at hc
  | cons o rest ih =>
    rcases List.mem_cons.mp hc with he | he
    · subst he
      rw [encodeSlots, childSlotBytes_refOf_hashed hlen]
      simp only [List.cons_append, List.length_cons, List.length_append,
        hashBytes_length]
      omega
    · have := ih he
      cases o with
      | none => rw [encodeSlots]; exact this
      | some c2 =>
        rw [encodeSlots]
        simp only [List.length_append]
        omega

theorem encode_ge_of_hashed_child (pk : List Nat) (val : Option (List Nat))
    {cs : List (Option Trie)} {c : Trie} (hc : some c ∈ cs)
    (hlen : 32 ≤ c.encode.length) :
    33 ≤ (Trie.encode (.node pk val cs)).length := by
  have hnone : ¬ (cs.all (fun o => o.isNone) = true) := by
    intro hall
    have := List.all_eq_true.mp hall (some c) hc
    simp at this
  rw [Trie.encode, if_neg hnone]
  have := encodeSlots_ge hc hlen
  simp only [List.length_append]
  omega

theorem childrenHashed_nil {cs : List (Option Trie)}
    (h : ∀ c, some c ∈ cs → ¬ (32 ≤ c.encode.length) ∧ c.hashedSub = []) :
    childrenHashed cs = [] := by
  induction cs with
  | nil => rfl
  | cons o rest ih =>
    cases o with
    | none =>
      rw [childrenHashed]
      exact ih (fun c hc => h c (List.mem_cons_of_mem _ hc))
    | some c =>
      obtain ⟨hlen, hsub⟩ := h c (List.mem_cons_self _ _)
      rw [childrenHashed, if_neg hlen, hsub]
      simp only [List.nil_append]
      exact ih (fun c2 hc2 => h c2 (List.mem_cons_of_mem _ hc2))

theorem hashedSub_nil_of_short {t : Trie} (h : t.encode.length < 32) :
    t.hashedSub = [] := by
  induction t using Trie.strongInd with
  | h pk val cs ih =>
    rw [Trie.hashedSub]
    refine childrenHashed_nil (fun c hc => ?_)
    have hshort : ¬ (32 ≤ c.encode.length) := by
      intro h32
      have := encode_ge_of_hashed_child pk val hc h32
      omega
    exact ⟨hshort, ih c hc (by omega)⟩

theorem mem_childrenHashed_of {cs : List (Option Trie)} {c : Trie}
    (hc : some c ∈ cs) :
    (32 ≤ c.encode.length → c.encode ∈ childrenHashed cs) ∧
      ∀ e ∈ c.hashedSub, e ∈ childrenHashed cs := by
  induction cs with
  | nil => simp at hc
  | cons o rest ih =>
    rcases List.mem_cons.mp hc with he | he
    · subst he
      rw [childrenHashed]
      constructor
      · intro h32
        rw [if_pos h32]
        simp
      · intro e hesub
        simp only [List.mem_append]
        exact Or.inr (Or.inl hesub)
    · obtain ⟨ih1, ih2⟩ := ih he
      cases o with
      | none =>
        rw [childrenHashed]
        exact ⟨ih1, ih2⟩
      | some c2 =>
        rw [childrenHashed]
        simp only [List.mem_append]
        exact ⟨fun h32 => Or.inr (Or.inr (ih1 h32)),
          fun e hesub => Or.inr (Or.inr (ih2 e hesub))⟩

theorem mem_childrenHashed_elim {cs : List (Option Trie)} {e : List Nat}
    (he : e ∈ childrenHashed cs) :
    ∃ c, some c ∈ cs ∧
      ((e = c.encode ∧ 32 ≤ c.encode.length) ∨ e ∈ c.hashedSub) := by
  induction cs with
  | nil => simp [childrenHashed] at he
  | cons o rest ih =>
    cases o with
    | none =>
      rw [childrenHashed] at he
      obtain ⟨c, hc, hor⟩ := ih he
      exact ⟨c, List.mem_cons_of_mem _ hc, hor⟩
    | some c0 =>
      rw [childrenHashed] at he
      simp only [List.mem_append] at he
      rcases he with he | he | he
      · split at he
        · next h32 =>
          simp only [List.mem_singleton] at he
          exact ⟨c0, List.mem_cons_self _ _, Or.inl ⟨he, h32⟩⟩
        · simp at he
      · exact ⟨c0, List.mem_cons_self _ _, Or.inr he⟩
      · obtain ⟨c, hc, hor⟩ := ih he
        exact ⟨c, List.mem_cons_of_mem _ hc, hor⟩

theorem mem_hashedSub_encode {t : Trie} :
    ∀ e ∈ t.hashedSub, ∃ m ∈ t.allNodes, e = m.encode ∧ 32 ≤ e.length := by
  induction t using Trie.strongInd with
  | h pk val cs ih =>
    intro e he
    rw [Trie.hashedSub] at he
    obtain ⟨c, hc, hor⟩ := mem_childrenHashed_elim he
    have hcall : c ∈ (Trie.node pk val cs).allNodes := by
      rw [Trie.allNodes]
      exact List.mem_cons_of_mem _
        (mem_childrenNodes.mpr ⟨c, hc, c.self_mem_allNodes⟩)
    rcases hor with ⟨rfl, h32⟩ | hsub
    · exact ⟨c, hcall, rfl, h32⟩
    · obtain ⟨m, hm, heq, h32⟩ := ih c hc e hsub
      refine ⟨m, ?_, heq, h32⟩
      rw [Trie.allNodes]
      refine List.mem_cons_of_mem _ (mem_childrenNodes.mpr ⟨c, hc, hm⟩)

theorem hashedSub_contains {t m c : Trie} (hm : m ∈ t.allNodes)
    {pk : List Nat} {val : Option (List Nat)} {cs : List (Option Trie)}
    (hmeq : m = .node pk val cs) (hc : some c ∈ cs)
    (hlen : 32 ≤ c.encode.length) : c.encode ∈ t.hashedSub := by
  induction t using Trie.strongInd with
  | h pk2 val2 cs2 ih =>
    rw [Trie.allNodes] at hm
    rw [Trie.hashedSub]
    rcases List.mem_cons.mp hm with he | he
    · subst hmeq
      have heq := he.symm
      simp only [Trie.node.injEq] at heq
      obtain ⟨_, _, hcs⟩ := heq
      subst hcs
      exact (mem_childrenHashed_of hc).1 hlen
    · obtain ⟨c0, hc0, hmc0⟩ := mem_childrenNodes.mp he
      have := ih c0 hc0 hmc0
      exact (mem_childrenHashed_of hc0).2 _ this

/-! ### References of the one-level view -/

/-- Hashes of the hash-referenced children of a child-slot list. -/
def hashedChildHashes : List (Option Trie) → List (List Nat)
  | [] => []
  | none :: rest => hashedChildHashes rest
  | some c :: rest =>
    (if 32 ≤ (Trie.encode c).length then [hashBytes c.encode] else []) ++
      hashedChildHashes rest

theorem nodeRefs_toNode (pk : List Nat) (val : Option (List Nat))
    (cs : List (Option Trie)) :
    nodeRefs (Trie.toNode (.node pk val cs)) = hashedChildHashes cs := by
  rw [Trie.toNode, nodeRefs]
  show (cs.map (Option.map (fun c => refOfBytes c.encode))).foldr _ [] = _
  induction cs with
  | nil => rfl
  | cons o rest ih =>
    cases o with
    | none =>
      simp only [List.map_cons, Option.map_none', List.foldr_cons, ih]
      rw [hashedChildHashes]
    | some c =>
      simp only [List.map_cons, Option.map_some', List.foldr_cons, ih]
      rw [hashedChildHashes]
      by_cases h32 : 32 ≤ c.encode.length
      · rw [if_pos h32]
        unfold refOfBytes merkle_value
        rw [if_neg (by omega)]
        simp
      · rw [if_neg h32]
        unfold refOfBytes merkle_value
        rw [if_pos (by omega)]
        simp [bytesRefs_short 32 c.encode (by omega)]

theorem mem_hashedChildHashes {cs : List (Option Trie)} {x : List Nat} :
    x ∈ hashedChildHashes cs ↔
      ∃ c, some c ∈ cs ∧ 32 ≤ c.encode.length ∧ x = hashBytes c.encode := by
  induction cs with
  | nil => simp [hashedChildHashes]
  | cons o rest ih =>
    cases o with
    | none =>
      rw [hashedChildHashes]
      rw [ih]
      constructor
      · rintro ⟨c, hc, h32, rfl⟩
        exact ⟨c, List.mem_cons_of_mem _ hc, h32, rfl⟩
      · rintro ⟨c, hc, h32, rfl⟩
        rcases List.mem_cons.mp hc with he | he
        · exact absurd he (by simp)
        · exact ⟨c, he, h32, rfl⟩
    | some c0 =>
      rw [hashedChildHashes]
      simp only [List.mem_append, ih]
      constructor
      · rintro (hx | ⟨c, hc, h32, rfl⟩)
        · split at hx
          · next h32 =>
            simp only [List.mem_singleton] at hx
            exact ⟨c0, List.mem_cons_self _ _, h32, hx⟩
          · simp at hx
        · exact ⟨c, List.mem_cons_of_mem _ hc, h32, rfl⟩
      · rintro ⟨c, hc, h32, rfl⟩
        rcases List.mem_cons.mp hc with he | he
        · simp only [Option.some.injEq] at he
          subst he
          rw [if_pos h32]
          simp
        · exact Or.inr ⟨c, he, h32, rfl⟩

/-! ### The honest proof builds and verifies -/

/-- The decoded entry pairs of the honest proof. -/
def Trie.entryPairs (t : Trie) : List (List Nat × TrieNode) :=
  t.entriesList.map (fun e => (e, decodedNode e))

/-- Modelled from the spec: collision-freedom of the modelled hash on the
node encodings of one trie — the standing assumption that the real
collision-resistant hash provides. -/
def Trie.collFree (t : Trie) : Prop :=
  ∀ a ∈ t.allNodes, ∀ b ∈ t.allNodes,
    merkle_value a.encode = merkle_value b.encode → a.encode = b.encode

instance (t : Trie) : Decidable t.collFree := by
  unfold Trie.collFree
  infer_instance

theorem mem_entriesList_node {t : Trie} {e : List Nat}
    (he : e ∈ t.entriesList) : ∃ m ∈ t.allNodes, e = m.encode := by
  rcases mem_entriesList he with h | h
  · exact ⟨t, t.self_mem_allNodes, h⟩
  · obtain ⟨m, hm, heq, _⟩ := mem_hashedSub_encode e h
    exact ⟨m, hm, heq⟩

theorem entryPairs_mem {t : Trie} (hwf : t.wf = true)
    {p : List Nat × TrieNode} (hp : p ∈ t.entryPairs) :
    ∃ m ∈ t.allNodes, p.1 = m.encode ∧ p.2 = m.toNode := by
  simp only [Trie.entryPairs, List.mem_map] at hp
  obtain ⟨e, he, rfl⟩ := hp
  obtain ⟨m, hm, rfl⟩ := mem_entriesList_node he
  exact ⟨m, hm, rfl, decodedNode_encode (t.wf_allNodes hwf m hm)⟩

theorem entryPairs_head (t : Trie) :
    ∃ rest, t.entryPairs = (t.encode, decodedNode t.encode) :: rest := by
  rw [Trie.entryPairs, entriesList_eq]
  exact ⟨_, rfl⟩

theorem buildEntries_honest {t : Trie} (hwf : t.wf = true) :
    buildEntries t.proofBytes = .ok t.entryPairs := by
  refine buildEntries_ok_iff.mpr ⟨?_, ?_⟩
  · rw [Trie.proofBytes]
    exact scanEntries_concat (fun e he => by
      obtain ⟨m, hm, rfl⟩ := mem_entriesList_node he
      have hmwf := t.wf_allNodes hwf m hm
      refine ⟨m.encode_ne_nil, ?_⟩
      rw [decodedNode_encode hmwf]
      exact decode_node_exact hmwf)
  · have := entriesList_nodup t
    simpa [Trie.entryPairs, List.map_map, Function.comp] using this

theorem mem_entryMvs {es : List (List Nat × TrieNode)} {x : MerkleValue} :
    x ∈ entryMvs es ↔ ∃ p ∈ es, merkle_value p.1 = x := by
  simp [entryMvs, List.mem_toFinset, List.mem_map]

theorem entryMvs_entryPairs (t : Trie) :
    entryMvs t.entryPairs = (t.entriesList.map merkle_value).toFinset := by
  simp only [entryMvs, Trie.entryPairs, List.map_map]
  rfl

theorem rootMvs_honest (t : Trie) :
    rootMvs t.entryPairs [t.rootHash] = {merkle_value t.encode} := by
  obtain ⟨rest, hrw⟩ := entryPairs_head t
  rw [rootMvs, hrw]
  simp only [List.filterMap_cons, List.filterMap_nil]
  rw [List.find?_cons_of_pos _ (by simp [Trie.rootHash])]
  simp

theorem honest_refs_present {t : Trie} (hwf : t.wf = true) :
    ∀ p ∈ t.entryPairs, ∀ h ∈ nodeRefs p.2,
      MerkleValue.Hashed h ∈ entryMvs t.entryPairs := by
  intro p hp h hh
  obtain ⟨m, hm, he1, he2⟩ := entryPairs_mem hwf hp
  cases m with
  | node pk val cs =>
    rw [he2, nodeRefs_toNode] at hh
    obtain ⟨c, hc, h32, rfl⟩ := mem_hashedChildHashes.mp hh
    have hsub : c.encode ∈ t.hashedSub := hashedSub_contains hm rfl hc h32
    obtain ⟨e2, he2mem, hmv⟩ := entriesList_covers (Or.inr hsub)
    have hcmv : merkle_value c.encode = .Hashed (hashBytes c.encode) := by
      rw [merkle_value, if_neg (by omega)]
    rw [← hcmv, ← hmv]
    exact mem_entryMvs.mpr ⟨(e2, decodedNode e2),
      List.mem_map.mpr ⟨e2, he2mem, rfl⟩, rfl⟩

theorem honest_descend {t : Trie} (hwf : t.wf = true) (hcoll : t.collFree) :
    ∀ s, s ∈ t.allNodes →
      merkle_value s.encode ∈ reachSet t.entryPairs [t.rootHash] →
      ∀ e ∈ s.hashedSub,
        merkle_value e ∈ reachSet t.entryPairs [t.rootHash] := by
  intro s
  induction s using Trie.strongInd with
  | h pk val cs ih =>
    intro hsall hsR e hesub
    have hchild : ∀ c, some c ∈ cs → 32 ≤ c.encode.length →
        merkle_value c.encode ∈ reachSet t.entryPairs [t.rootHash] := by
      intro c hc h32
      have hsmem : merkle_value (Trie.encode (.node pk val cs)) ∈
          entryMvs t.entryPairs := reachSet_subset _ _ hsR
      obtain ⟨p, hp, hpmv⟩ := mem_entryMvs.mp hsmem
      obtain ⟨m2, hm2, hp1, hp2⟩ := entryPairs_mem hwf hp
      have hencEq : m2.encode = Trie.encode (.node pk val cs) := by
        refine hcoll m2 hm2 _ hsall ?_
        rw [← hp1, hpmv]
      have hnodeEq : p.2 = Trie.toNode (.node pk val cs) := by
        have d1 := decode_node_exact (t.wf_allNodes hwf m2 hm2)
        have d2 := decode_node_exact (t.wf_allNodes hwf _ hsall)
        rw [hencEq, d2] at d1
        simp only [Except.ok.injEq, Prod.mk.injEq] at d1
        rw [hp2, d1.1]
      have hhref : hashBytes c.encode ∈ nodeRefs p.2 := by
        rw [hnodeEq, nodeRefs_toNode]
        exact mem_hashedChildHashes.mpr ⟨c, hc, h32, rfl⟩
      have hpres : MerkleValue.Hashed (hashBytes c.encode) ∈
          entryMvs t.entryPairs :=
        honest_refs_present hwf p hp _ hhref
      have hstep := reachSet_closed hp (by rw [hp1, hencEq]; exact hsR) hhref hpres
      have hcmv : merkle_value c.encode = .Hashed (hashBytes c.encode) := by
        rw [merkle_value, if_neg (by omega)]
      rwa [hcmv]
    rw [Trie.hashedSub] at hesub
    obtain ⟨c, hc, hor⟩ := mem_childrenHashed_elim hesub
    rcases hor with ⟨rfl, h32⟩ | hsub
    · exact hchild c hc h32
    · by_cases h32 : 32 ≤ c.encode.length
      · exact ih c hc (Trie.allNodes_child hsall rfl hc) (hchild c hc h32) e hsub
      · rw [hashedSub_nil_of_short (by omega)] at hsub
        simp at hsub

theorem honest_root_in_reach (t : Trie) :
    merkle_value t.encode ∈ reachSet t.entryPairs [t.rootHash] := by
  have h := rootMvs_subset_reachSet t.entryPairs [t.rootHash]
  rw [rootMvs_honest] at h
  exact h (Finset.mem_singleton_self _)

theorem honest_entries_reachable {t : Trie} (hwf : t.wf = true)
    (hcoll : t.collFree) :
    ∀ p ∈ t.entryPairs,
      merkle_value p.1 ∈ reachSet t.entryPairs [t.rootHash] := by
  intro p hp
  simp only [Trie.entryPairs, List.mem_map] at hp
  obtain ⟨e, he, rfl⟩ := hp
  rcases mem_entriesList he with h | h
  · rw [h]
    exact honest_root_in_reach t
  · exact honest_descend hwf hcoll t t.self_mem_allNodes
      (honest_root_in_reach t) e h

theorem reachSet_honest_eq {t : Trie} (hwf : t.wf = true)
    (hcoll : t.collFree) :
    reachSet t.entryPairs [t.rootHash] = entryMvs t.entryPairs := by
  refine Finset.Subset.antisymm (reachSet_subset _ _) (fun x hx => ?_)
  obtain ⟨p, hp, hpmv⟩ := mem_entryMvs.mp hx
  rw [← hpmv]
  exact honest_entries_reachable hwf hcoll p hp

theorem verify_honest {t : Trie} (hwf : t.wf = true) (hcoll : t.collFree) :
    verify t.entryPairs [t.rootHash] = .ok (entryMvs t.entryPairs) := by
  obtain ⟨rest, hrw⟩ := entryPairs_head t
  have hne : ¬ (t.entryPairs.isEmpty = true) := by
    rw [hrw]
    simp
  unfold verify
  rw [if_neg hne]
  rw [if_pos (show ∀ R ∈ [t.rootHash], ∃ p ∈ t.entryPairs, hashBytes p.1 = R by
    intro R hR
    simp only [List.mem_singleton] at hR
    subst hR
    exact ⟨(t.encode, decodedNode t.encode), by rw [hrw]; simp, rfl⟩)]
  rw [if_neg (show ¬ ∃ p ∈ t.entryPairs,
      merkle_value p.1 ∈ reachSet t.entryPairs [t.rootHash] ∧
      ∃ h ∈ nodeRefs p.2, MerkleValue.Hashed h ∉ entryMvs t.entryPairs by
    rintro ⟨p, hp, _, h, hh, habs⟩
    exact habs (honest_refs_present hwf p hp h hh))]
  rw [if_pos (fun p hp => honest_entries_reachable hwf hcoll p hp)]
  rw [reachSet_honest_eq hwf hcoll]

/-! ## Query view

Modelled from the spec: `get(root, key)` walks from the root entry,
consuming nibbles of the key against successive partial keys and children;
it answers `Found(bytes)`, `FoundHashOnly(hash)`, `NotFound` (the proof
positively shows the key absent) or `NotInProof` (the walk needs a hash
child not present in the graph). -/

/-- Modelled from the spec: result of a point lookup in the query view. -/
inductive Lookup where
  | Found (b : List Nat)
  | FoundHashOnly (h : List Nat)
  | NotFound
  | NotInProof
deriving DecidableEq

/-- Locate the entry with the given merkle value. -/
def findEntryByMv (es : List (List Nat × TrieNode))
    (mv : MerkleValue) : Option (List Nat × TrieNode) :=
  es.find? (fun p => decide (merkle_value p.1 = mv))

/-- Modelled from the spec: the walk of `get` below a node (fuel-indexed;
every step consumes at least one nibble of the key, so a fuel exceeding
the key length is always sufficient). -/
def getWalk (es : List (List Nat × TrieNode)) :
    Nat → TrieNode → List Nat → Lookup
  | 0, _, _ => .NotInProof
  | fuel + 1, n, key =>
    if n.partial_key.isPrefixOf key then
      match key.drop n.partial_key.length with
      | [] =>
        match n.storage_value with
        | some (.Plain v) => .Found v
        | some (.HashOnly h) => .FoundHashOnly h
        | none => .NotFound
      | nib :: key2 =>
        match n.children.getD nib none with
        | some (.Inline ib) =>
          match decode_node ib with
          | .ok (cn, _) => getWalk es fuel cn key2
          | .error _ => .NotInProof
        | some (.Hash h) =>
          match findEntryByMv es (.Hashed h) with
          | some p => getWalk es fuel p.2 key2
          | none => .NotInProof
        | none => .NotFound
    else .NotFound

/-- Modelled from the spec: `get(root, key)` — locate the root entry by its
hash, then walk. -/
def get (es : List (List Nat × TrieNode)) (root key : List Nat) : Lookup :=
  match es.find? (fun p => decide (hashBytes p.1 = root)) with
  | some p => getWalk es (key.length + 1) p.2 key
  | none => .NotInProof

/-- The expected lookup answer for a ground-truth mapping result. -/
def lookupAnswer : Option (List Nat) → Lookup
  | some v => .Found v
  | none => .NotFound

theorem getD_none_mem {α : Type} {cs : List (Option α)} {i : Nat} {c : α}
    (h : cs.getD i none = some c) : some c ∈ cs := by
  induction cs generalizing i with
  | nil => simp [List.getD] at h
  | cons o rest ih =>
    cases i with
    | zero =>
      simp only [List.getD_cons_zero] at h
      exact h ▸ List.mem_cons_self _ _
    | succ i =>
      simp only [List.getD_cons_succ] at h
      exact List.mem_cons_of_mem _ (ih h)

theorem getD_map_option {α β : Type} (f : α → β) (cs : List (Option α))
    (i : Nat) :
    (cs.map (Option.map f)).getD i none = Option.map f (cs.getD i none) := by
  induction cs generalizing i with
  | nil => simp [List.getD]
  | cons o rest ih =>
    cases i with
    | zero => simp [List.getD]
    | succ i =>
      simp only [List.getD, List.map_cons, List.get?_cons_succ] at *
      exact ih i

theorem find_root_honest (t : Trie) :
    t.entryPairs.find? (fun p => decide (hashBytes p.1 = t.rootHash)) =
      some (t.encode, decodedNode t.encode) := by
  obtain ⟨rest, hrw⟩ := entryPairs_head t
  rw [hrw, List.find?_cons_of_pos _ (by simp [Trie.rootHash])]

theorem hashed_child_entry {t s c : Trie} (hwf : t.wf = true)
    (hcoll : t.collFree) (hs : s ∈ t.allNodes)
    {pk : List Nat} {val : Option (List Nat)} {cs : List (Option Trie)}
    (hseq : s = .node pk val cs) (hc : some c ∈ cs)
    (h32 : 32 ≤ c.encode.length) :
    ∃ p, findEntryByMv t.entryPairs (.Hashed (hashBytes c.encode)) = some p ∧
      p.2 = c.toNode := by
  have hcall : c ∈ t.allNodes := Trie.allNodes_child hs hseq hc
  have hsub : c.encode ∈ t.hashedSub := hashedSub_contains hs hseq hc h32
  obtain ⟨e2, he2mem, hmv⟩ := entriesList_covers (Or.inr hsub)
  have hcmv : merkle_value c.encode = .Hashed (hashBytes c.encode) := by
    rw [merkle_value, if_neg (by omega)]
  have hex : ∃ p ∈ t.entryPairs,
      (fun p => decide (merkle_value p.1 = MerkleValue.Hashed (hashBytes c.encode))) p = true := by
    refine ⟨(e2, decodedNode e2), List.mem_map.mpr ⟨e2, he2mem, rfl⟩, ?_⟩
    simp only [decide_eq_true_eq]
    rw [hmv, hcmv]
  have hsome : (t.entryPairs.find?
      (fun p => decide (merkle_value p.1 = MerkleValue.Hashed (hashBytes c.encode)))).isSome := by
    rw [List.find?_isSome]
    exact hex
  obtain ⟨p, hp⟩ := Option.isSome_iff_exists.mp hsome
  refine ⟨p, hp, ?_⟩
  have hpmem : p ∈ t.entryPairs := List.mem_of_find?_eq_some hp
  have hppred := List.find?_some hp
  simp only [decide_eq_true_eq] at hppred
  obtain ⟨m2, hm2, hp1, hp2⟩ := entryPairs_mem hwf hpmem
  have hencEq : m2.encode = c.encode := by
    refine hcoll m2 hm2 c hcall ?_
    rw [← hp1, hppred, hcmv]
  have d1 := decode_node_exact (t.wf_allNodes hwf m2 hm2)
  have d2 := decode_node_exact (t.wf_allNodes hwf c hcall)
  rw [hencEq, d2] at d1
  simp only [Except.ok.injEq, Prod.mk.injEq] at d1
  rw [hp2, d1.1]

theorem getWalk_correct {t : Trie} (hwf : t.wf = true) (hcoll : t.collFree) :
    ∀ (fuel : Nat) (key : List Nat) (s : Trie), s ∈ t.allNodes →
      key.length < fuel →
      getWalk t.entryPairs fuel s.toNode key = lookupAnswer (s.lookup key) := by
  intro fuel
  induction fuel with
  | zero => intro key s _ hlen; omega
  | succ fuel ih =>
    intro key s hs hlen
    cases s with
    | node pk val cs =>
      have hswf := t.wf_allNodes hwf _ hs
      rw [getWalk, Trie.lookup]
      simp only [Trie.toNode]
      by_cases hpre : pk.isPrefixOf key
      · rw [if_pos hpre, if_pos hpre]
        cases hdrop : key.drop pk.length with
        | nil =>
          cases val with
          | none => rfl
          | some v => rfl
        | cons nib key2 =>
          have hkey2 : key2.length < fuel := by
            have := congrArg List.length hdrop
            simp only [List.length_drop, List.length_cons] at this
            omega
          dsimp only
          rw [getD_map_option]
          cases hg : cs.getD nib none with
          | none => rfl
          | some c =>
            have hmem : some c ∈ cs := getD_none_mem hg
            have hcall : c ∈ t.allNodes := Trie.allNodes_child hs rfl hmem
            have hcwf := t.wf_allNodes hwf c hcall
            simp only [Option.map_some']
            by_cases h32 : 32 ≤ c.encode.length
            · rw [show refOfBytes c.encode = .Hash (hashBytes c.encode) by
                unfold refOfBytes merkle_value
                rw [if_neg (by omega)]]
              obtain ⟨p, hfind, hp2⟩ :=
                hashed_child_entry hwf hcoll hs rfl hmem h32
              dsimp only
              rw [hfind]
              dsimp only
              rw [hp2]
              exact ih key2 c hcall hkey2
            · rw [show refOfBytes c.encode = .Inline c.encode by
                unfold refOfBytes merkle_value
                rw [if_pos (by omega)]]
              dsimp only
              rw [decode_node_exact hcwf]
              exact ih key2 c hcall hkey2
      · rw [if_neg hpre, if_neg hpre]
        rfl

theorem get_honest {t : Trie} (hwf : t.wf = true) (hcoll : t.collFree)
    (key : List Nat) :
    get t.entryPairs t.rootHash key = lookupAnswer (t.lookup key) := by
  unfold get
  rw [find_root_honest t]
  show getWalk t.entryPairs (key.length + 1) (decodedNode t.encode) key = _
  rw [decodedNode_encode hwf]
  exact getWalk_correct hwf hcoll (key.length + 1) key t t.self_mem_allNodes
    (by omega)

/-! ## Appending an unreferenced entry -/

theorem find?_append_left {α : Type} {l1 l2 : List α} {p : α → Bool}
    {x : α} (h : l1.find? p = some x) : (l1 ++ l2).find? p = some x := by
  induction l1 with
  | nil => simp [List.find?] at h
  | cons a t ih =>
    cases hpa : p a with
    | true =>
      rw [List.find?_cons_of_pos _ hpa] at h
      rw [List.cons_append, List.find?_cons_of_pos _ hpa]
      exact h
    | false =>
      rw [List.find?_cons_of_neg _ (by simp [hpa])] at h
      rw [List.cons_append, List.find?_cons_of_neg _ (by simp [hpa])]
      exact ih h

theorem verify_ok_elim {es : List (List Nat × TrieNode)}
    {roots : List (List Nat)} {V : Finset MerkleValue}
    (h : verify es roots = .ok V) :
    (es = [] ∧ roots = [] ∧ V = ∅) ∨
    (es ≠ [] ∧ (∀ R ∈ roots, ∃ p ∈ es, hashBytes p.1 = R) ∧
      (¬ ∃ p ∈ es, merkle_value p.1 ∈ reachSet es roots ∧
        ∃ h2 ∈ nodeRefs p.2, MerkleValue.Hashed h2 ∉ entryMvs es) ∧
      (∀ p ∈ es, merkle_value p.1 ∈ reachSet es roots) ∧
      V = reachSet es roots) := by
  unfold verify at h
  by_cases he : es.isEmpty = true
  · rw [if_pos he] at h
    by_cases hr : roots.isEmpty = true
    · rw [if_pos hr] at h
      simp only [Except.ok.injEq] at h
      exact Or.inl ⟨List.isEmpty_iff.mp he, List.isEmpty_iff.mp hr, h.symm⟩
    · rw [if_neg hr] at h
      exact absurd h (by simp)
  · rw [if_neg he] at h
    have hne : es ≠ [] := fun hn => he (by simp [hn])
    by_cases hroot : ∀ R ∈ roots, ∃ p ∈ es, hashBytes p.1 = R
    · rw [if_pos hroot] at h
      by_cases hmiss : ∃ p ∈ es, merkle_value p.1 ∈ reachSet es roots ∧
          ∃ h2 ∈ nodeRefs p.2, MerkleValue.Hashed h2 ∉ entryMvs es
      · rw [if_pos hmiss] at h
        exact absurd h (by simp)
      · rw [if_neg hmiss] at h
        by_cases hall : ∀ p ∈ es, merkle_value p.1 ∈ reachSet es roots
        · rw [if_pos hall] at h
          simp only [Except.ok.injEq] at h
          exact Or.inr ⟨hne, hroot, hmiss, hall, h.symm⟩
        · rw [if_neg hall] at h
          exact absurd h (by simp)
    · rw [if_neg hroot] at h
      exact absurd h (by simp)

theorem buildEntries_append {buf g : List Nat}
    {es : List (List Nat × TrieNode)} {ng : TrieNode}
    (hbuild : buildEntries buf = .ok es)
    (hg : decode_node g = .ok (ng, g.length)) (hgne : g ≠ [])
    (hfresh : merkle_value g ∉ entryMvs es) :
    buildEntries (buf ++ g) = .ok (es ++ [(g, ng)]) := by
  obtain ⟨hscan, hnodup⟩ := buildEntries_ok_iff.mp hbuild
  refine buildEntries_ok_iff.mpr ⟨?_, ?_⟩
  · rw [scanEntries_append hscan]
    have hsg : scanEntries g = .complete [(g, ng)] := by
      rw [scanEntries_step hgne hg]
      simp only [List.drop_length, List.take_length, scanEntries_nil]
    rw [hsg]
  · have hnm : merkle_value g ∉ es.map (fun p => merkle_value p.1) := by
      intro hmem
      exact hfresh (List.mem_toFinset.mpr hmem)
    simp only [List.map_append, List.map_cons, List.map_nil]
    rw [List.nodup_append]
    refine ⟨hnodup, List.nodup_singleton _, fun x hx => ?_⟩
    simp only [List.mem_singleton]
    intro hxg
    subst hxg
    exact hnm hx

theorem entryMvs_append_single (es : List (List Nat × TrieNode))
    (g : List Nat) (ng : TrieNode) :
    entryMvs (es ++ [(g, ng)]) = entryMvs es ∪ {merkle_value g} := by
  simp [entryMvs, List.map_append, List.toFinset_append]

theorem rootMvs_append {es : List (List Nat × TrieNode)} {g : List Nat}
    {ng : TrieNode} {roots : List (List Nat)}
    (hfound : ∀ R ∈ roots, ∃ p ∈ es, hashBytes p.1 = R) :
    rootMvs (es ++ [(g, ng)]) roots = rootMvs es roots := by
  unfold rootMvs
  congr 1
  refine List.filterMap_congr (fun R hR => ?_)
  obtain ⟨p, hp, hpred⟩ := hfound R hR
  have hsome : (es.find? (fun p => decide (hashBytes p.1 = R))).isSome := by
    rw [List.find?_isSome]
    exact ⟨p, hp, by simp [hpred]⟩
  obtain ⟨p0, hp0⟩ := Option.isSome_iff_exists.mp hsome
  rw [hp0, find?_append_left hp0]

theorem merkle_value_hashed_elim {g : List Nat} {h : List Nat}
    (he : merkle_value g = .Hashed h) : h = hashBytes g := by
  unfold merkle_value at he
  split at he
  · exact absurd he (by simp)
  · simp only [MerkleValue.Hashed.injEq] at he
    exact he.symm

theorem reachStep_append_eq {es : List (List Nat × TrieNode)}
    {g : List Nat} {ng : TrieNode} {roots : List (List Nat)}
    (hfresh : merkle_value g ∉ entryMvs es)
    (hunref : ∀ p ∈ es, merkle_value p.1 ∈ reachSet es roots →
      hashBytes g ∉ nodeRefs p.2)
    {X : Finset MerkleValue} (hX : X ⊆ reachSet es roots) :
    reachStep (es ++ [(g, ng)]) X = reachStep es X := by
  have hXe : X ⊆ entryMvs es := hX.trans (reachSet_subset es roots)
  ext x
  rw [mem_reachStep, mem_reachStep]
  constructor
  · rintro (hx | ⟨p, hp, hpm, hpr⟩)
    · exact Or.inl hx
    · rcases List.mem_append.mp hp with hp | hp
      · obtain ⟨h2, hh2, rfl, hpres⟩ := mem_presentRefs.mp hpr
        rw [entryMvs_append_single] at hpres
        rcases Finset.mem_union.mp hpres with hpres | hpres
        · exact Or.inr ⟨p, hp, hpm,
            mem_presentRefs.mpr ⟨h2, hh2, rfl, hpres⟩⟩
        · exfalso
          rw [Finset.mem_singleton] at hpres
          have hg2 : h2 = hashBytes g := merkle_value_hashed_elim hpres.symm
          subst hg2
          exact hunref p hp (hX hpm) hh2
      · exfalso
        simp only [List.mem_singleton] at hp
        subst hp
        exact hfresh (hXe hpm)
  · rintro (hx | ⟨p, hp, hpm, hpr⟩)
    · exact Or.inl hx
    · obtain ⟨h2, hh2, rfl, hpres⟩ := mem_presentRefs.mp hpr
      refine Or.inr ⟨p, List.mem_append.mpr (Or.inl hp), hpm,
        mem_presentRefs.mpr ⟨h2, hh2, rfl, ?_⟩⟩
      rw [entryMvs_append_single]
      exact Finset.mem_union.mpr (Or.inl hpres)

theorem reachSet_append_eq {es : List (List Nat × TrieNode)}
    {g : List Nat} {ng : TrieNode} {roots : List (List Nat)}
    (hfound : ∀ R ∈ roots, ∃ p ∈ es, hashBytes p.1 = R)
    (hfresh : merkle_value g ∉ entryMvs es)
    (hunref : ∀ p ∈ es, merkle_value p.1 ∈ reachSet es roots →
      hashBytes g ∉ nodeRefs p.2) :
    reachSet (es ++ [(g, ng)]) roots = reachSet es roots := by
  have hX0 : rootMvs es roots ⊆ entryMvs es := rootMvs_subset es roots
  have hiter : ∀ k, (reachStep es)^[k] (rootMvs es roots) ⊆ reachSet es roots := by
    intro k
    by_cases hk : k ≤ es.length + 1
    · have hmono2 : ∀ i j, i ≤ j →
          (reachStep es)^[i] (rootMvs es roots) ⊆
            (reachStep es)^[j] (rootMvs es roots) := by
        intro i j hij
        obtain ⟨d, rfl⟩ := Nat.exists_eq_add_of_le hij
        induction d with
        | zero => exact subset_rfl
        | succ d ihd =>
          refine ihd (by omega) |>.trans ?_
          rw [show i + (d + 1) = (i + d) + 1 from rfl,
            Function.iterate_succ_apply']
          exact subset_reachStep es _
      exact hmono2 k (es.length + 1) hk
    · have hcard := entryMvs_card_le es
      unfold reachSet
      rw [iterate_stab_ge (entryMvs es) (fun X => subset_reachStep es X)
          (fun X => reachStep_bound) hX0 k (by omega),
        iterate_stab_ge (entryMvs es) (fun X => subset_reachStep es X)
          (fun X => reachStep_bound) hX0 (es.length + 1) (by omega)]
  have hsteps : ∀ k, (reachStep (es ++ [(g, ng)]))^[k] (rootMvs es roots) =
      (reachStep es)^[k] (rootMvs es roots) := by
    intro k
    induction k with
    | zero => rfl
    | succ k ih =>
      rw [Function.iterate_succ_apply', Function.iterate_succ_apply', ih,
        reachStep_append_eq hfresh hunref (hiter k)]
  unfold reachSet
  rw [rootMvs_append hfound, hsteps]
  have hcard := entryMvs_card_le es
  rw [iterate_stab_ge (entryMvs es) (fun X => subset_reachStep es X)
      (fun X => reachStep_bound) hX0 ((es ++ [(g, ng)]).length + 1)
      (by simp only [List.length_append, List.length_cons, List.length_nil]; omega),
    iterate_stab_ge (entryMvs es) (fun X => subset_reachStep es X)
      (fun X => reachStep_bound) hX0 (es.length + 1) (by omega)]

theorem reachStep_empty (es : List (List Nat × TrieNode)) :
    reachStep es ∅ = ∅ := by
  ext x
  rw [mem_reachStep]
  simp

theorem reachSet_nil_roots (es : List (List Nat × TrieNode)) :
    reachSet es [] = ∅ := by
  unfold reachSet rootMvs
  simp only [List.filterMap_nil, List.toFinset_nil]
  generalize es.length + 1 = k
  induction k with
  | zero => rfl
  | succ k ih => rw [Function.iterate_succ_apply', ih, reachStep_empty]

theorem verify_append_unused {es : List (List Nat × TrieNode)}
    {g : List Nat} {ng : TrieNode} {roots : List (List Nat)}
    {V : Finset MerkleValue}
    (hverify : verify es roots = .ok V)
    (hfresh : merkle_value g ∉ entryMvs es)
    (hunref : ∀ p ∈ es, merkle_value p.1 ∈ reachSet es roots →
      hashBytes g ∉ nodeRefs p.2) :
    verify (es ++ [(g, ng)]) roots = .error (.Graph .UnusedEntry) := by
  rcases verify_ok_elim hverify with ⟨he, hr, _⟩ | ⟨hne, hroot, hmiss, hall, _⟩
  · subst he hr
    have hreach : reachSet ([] ++ [(g, ng)] : List (List Nat × TrieNode)) [] = ∅ :=
      reachSet_nil_roots _
    unfold verify
    rw [if_neg (by simp)]
    rw [if_pos (by intro R hR; simp at hR)]
    rw [if_neg (by
      rintro ⟨p, hp, hpm, _⟩
      rw [hreach] at hpm
      simp at hpm)]
    rw [if_neg (by
      intro hall2
      have := hall2 (g, ng) (by simp)
      rw [hreach] at this
      simp at this)]
  · have hreq : reachSet (es ++ [(g, ng)]) roots = reachSet es roots :=
      reachSet_append_eq hroot hfresh hunref
    unfold verify
    rw [if_neg (by
      cases es with
      | nil => exact absurd rfl hne
      | cons p es2 => simp)]
    rw [if_pos (by
      intro R hR
      obtain ⟨p, hp, hpred⟩ := hroot R hR
      exact ⟨p, List.mem_append.mpr (Or.inl hp), hpred⟩)]
    rw [if_neg (by
      rintro ⟨p, hp, hpm, h2, hh2, habs⟩
      rw [hreq] at hpm
      rcases List.mem_append.mp hp with hp | hp
      · refine habs ?_
        have hin : MerkleValue.Hashed h2 ∈ entryMvs es := by
          by_contra hni
          exact hmiss ⟨p, hp, hpm, h2, hh2, hni⟩
        rw [entryMvs_append_single]
        exact Finset.mem_union.mpr (Or.inl hin)
      · simp only [List.mem_singleton] at hp
        subst hp
        exact hfresh (reachSet_subset es roots hpm))]
    rw [if_neg (by
      intro hall2
      have := hall2 (g, ng) (List.mem_append.mpr (Or.inr (by simp)))
      rw [hreq] at this
      exact hfresh (reachSet_subset es roots this))]

/-! ## Full-node client facade

Embedded from `src/full-node/src/lib.rs`: the informant event loop that
`start` spawns (the task updating the shared `network_known_best` value),
and the `Client::num_peers` / `Client::num_network_connections` counters.
-/

/-- A network event as consumed by the informant loop in `start`. A block
announce carries the outcome of `header::decode` on its SCALE-encoded
header as an optional block number (the header codec lives outside the
provided sources); a connection event carries the peer's reported best
block number; every other event is ignored by the loop. -/
inductive NetworkEvent where
  | blockAnnounce (chainIndex : Nat) (decodedNumber : Option Nat)
  | connected (chainIndex : Nat) (bestBlockNumber : Nat)
  | other

/-- The body of the informant loop in `start`: how one network event
updates the shared `network_known_best` value. Mirrors the
`match network_event` statement: a chain-0 block announce whose header
decodes to a number not exceeded by the current value overwrites it, a
failed header decode does nothing, a chain-0 connection's best block
number likewise overwrites when larger, and every other event leaves the
value unchanged. -/
def informantStep (known : Option Nat) (ev : NetworkEvent) : Option Nat :=
  match ev with
  | .blockAnnounce 0 r =>
    (match known, r with
     | some n, some m => if n ≥ m then some n else some m
     | none, some m => some m
     | _, none => known)
  | .connected 0 m =>
    (match known with
     | some n => if n ≥ m then some n else some m
     | none => some m)
  | _ => known

/-- The informant loop run over a sequence of events, starting from the
initial `None` that `start` installs. -/
def informantRun (evs : List NetworkEvent) : Option Nat :=
  evs.foldl informantStep none

/-- Order on the optional best-block value: absent is below everything. -/
def optLe : Option Nat → Option Nat → Prop
  | none, _ => True
  | some _, none => False
  | some n, some m => n ≤ m

theorem optLe_refl (a : Option Nat) : optLe a a := by
  cases a <;> simp [optLe]

theorem optLe_trans {a b c : Option Nat} (h1 : optLe a b) (h2 : optLe b c) :
    optLe a c := by
  cases a <;> cases b <;> cases c <;> simp [optLe] at * <;> omega

theorem informantStep_mono (known : Option Nat) (ev : NetworkEvent) :
    optLe known (informantStep known ev) := by
  cases ev with
  | blockAnnounce i r =>
    cases i with
    | zero =>
      cases known <;> cases r <;> simp [informantStep, optLe]
      next n m =>
        by_cases h : n ≥ m <;> simp [h, optLe] <;> omega
    | succ i => cases known <;> simp [informantStep, optLe]
  | connected i m =>
    cases i with
    | zero =>
      cases known with
      | none => simp [informantStep, optLe]
      | some n =>
        by_cases h : n ≥ m <;> simp [informantStep, h, optLe] <;> omega
    | succ i => cases known <;> simp [informantStep, optLe]
  | other => cases known <;> simp [informantStep, optLe]

theorem informantFold_mono (evs : List NetworkEvent) :
    ∀ s : Option Nat, optLe s (evs.foldl informantStep s) := by
  induction evs with
  | nil => intro s; exact optLe_refl s
  | cons ev rest ih =>
    intro s
    rw [List.foldl_cons]
    exact optLe_trans (informantStep_mono s ev) (ih (informantStep s ev))

/-- Conversion of a usize count to u64, as `u64::try_from`: succeeds
exactly when the value fits in 64 bits. -/
def u64TryFrom (n : Nat) : Option Nat :=
  if n < 2 ^ 64 then some n else none

/-- `Client::num_peers`: the network service's peer count converted to
u64, saturated to `u64::MAX` via `unwrap_or` when it does not fit. -/
def num_peers (underlying : Nat) : Nat :=
  (u64TryFrom underlying).getD (2 ^ 64 - 1)

/-- `Client::num_network_connections`: the established-connection count
converted to u64, saturated to `u64::MAX` via `unwrap_or`. -/
def num_network_connections (underlying : Nat) : Nat :=
  (u64TryFrom underlying).getD (2 ^ 64 - 1)

/-! ## Concrete data used by the witnesses -/

deriving instance DecidableEq for Except

/-- A leaf whose encoding is at least 32 bytes, hence hash-referenced. -/
def leafA : Trie := .node [2] (some (List.replicate 30 7)) (List.replicate 16 none)

/-- A leaf whose encoding is below 32 bytes, hence inlined. -/
def leafB : Trie := .node [3] (some [8]) (List.replicate 16 none)

/-- A two-key trie with one hashed and one inline child. -/
def T0 : Trie := .node [] (some [9]) (some leafA :: some leafB :: List.replicate 14 none)

/-- A one-node trie used for small proof buffers. -/
def TLeaf : Trie := .node [1] (some [5, 6]) (List.replicate 16 none)

/-- A branch that hash-references `leafA` without providing its entry. -/
def TMissing : Trie := .node [] none (some leafA :: List.replicate 15 none)

/-- The encoding of `TLeaf`, spelled as bytes. -/
def eLeaf : List Nat := [1, 16, 0, 2, 0, 5, 6]

/-- The decoded node of `eLeaf`. -/
def nLeaf : TrieNode := ⟨[1], List.replicate 16 none, some (.Plain [5, 6])⟩

/-- A second, distinct leaf encoding. -/
def eLeaf2 : List Nat := [1, 16, 0, 1, 0, 7]

/-- The decoded node of `eLeaf2`. -/
def nLeaf2 : TrieNode := ⟨[1], List.replicate 16 none, some (.Plain [7])⟩

/-! ## Claims -/

/-- C3: For every input byte buffer — in particular every truncation of a
valid proof — decode-and-verify returns a value (success, a `CodecError`
or a graph-level `ProofError`); the decoder never consumes more bytes than
the buffer holds (no out-of-bounds reads, every length is validated before
allocation), and the entries of a successfully built graph partition the
buffer exactly, so allocation is bounded by the input size. Totality
itself is by construction: every function of the pipeline is a total
function returning `Except` values. -/
theorem c3_total_and_bounded (b : List Nat) (roots : List (List Nat)) :
    ((∃ es, decodeAndVerify b roots = .ok es) ∨
      (∃ e, decodeAndVerify b roots = .error (.Codec e)) ∨
      (∃ e, decodeAndVerify b roots = .error (.Graph e))) ∧
      (match decode_node b with
       | .ok (_, c) => 1 ≤ c ∧ c ≤ b.length
       | .error _ => True) ∧
      (match buildEntries b with
       | .ok es => (es.map (fun p => p.1.length)).sum = b.length
       | .error _ => True) := by
  refine ⟨?_, ?_, ?_⟩
  · cases h : decodeAndVerify b roots with
    | ok v => exact Or.inl ⟨v, rfl⟩
    | error e =>
      cases e with
      | Codec ce => exact Or.inr (Or.inl ⟨ce, rfl⟩)
      | Graph ge => exact Or.inr (Or.inr ⟨ge, rfl⟩)
  · cases h : decode_node b with
    | ok v =>
      obtain ⟨n, c⟩ := v
      exact decode_node_bounds h
    | error e => trivial
  · cases h : buildEntries b with
    | ok es => exact buildEntries_sum_length h
    | error e => trivial

/-- C7: `merkle_value` is a total, deterministic function of the input
bytes with no failure mode: for every byte string shorter than 32 bytes it
returns `Inline(bytes)`, and for every byte string of at least 32 bytes it
returns `Hashed(hash(bytes))`, the hash being a 32-byte digest. -/
theorem c7_merkle_value_total (b : List Nat) :
    (b.length < 32 → merkle_value b = .Inline b) ∧
      (32 ≤ b.length → merkle_value b = .Hashed (hashBytes b)) ∧
      (hashBytes b).length = 32 :=
  ⟨fun h => by rw [merkle_value, if_pos h],
    fun h => by rw [merkle_value, if_neg (by omega)],
    hashBytes_length b⟩

/-- Witness for C7 at concrete byte strings on both sides of the
threshold. -/
theorem c7_witness :
    merkle_value [1, 2, 3] = .Inline [1, 2, 3] ∧
      merkle_value (List.replicate 40 7) =
        .Hashed (hashBytes (List.replicate 40 7)) :=
  ⟨(c7_merkle_value_total [1, 2, 3]).1 (by decide),
    (c7_merkle_value_total (List.replicate 40 7)).2.1 (by decide)⟩

/-- C9: In the informant event loop spawned by `start`, the shared
`network_known_best` value starts as `None`, is only overwritten when a
chain-0 block announce's decoded header number or a chain-0 connection's
best block number strictly exceeds the current value (or none is set yet),
and is therefore monotonically non-decreasing over every event
sequence. -/
theorem c9_network_known_best_monotone :
    informantRun [] = none ∧
      (∀ known ev, informantStep known ev = known ∨
        ∃ m, informantStep known ev = some m ∧
          (known = none ∨ ∃ n, known = some n ∧ n < m) ∧
          (ev = .blockAnnounce 0 (some m) ∨ ev = .connected 0 m)) ∧
      (∀ evs more, optLe (informantRun evs) (informantRun (evs ++ more))) := by
  refine ⟨rfl, ?_, ?_⟩
  · intro known ev
    cases ev with
    | blockAnnounce i r =>
      cases i with
      | zero =>
        cases known with
        | none =>
          cases r with
          | none => exact Or.inl rfl
          | some m => exact Or.inr ⟨m, rfl, Or.inl rfl, Or.inl rfl⟩
        | some n =>
          cases r with
          | none => exact Or.inl rfl
          | some m =>
            by_cases h : n ≥ m
            · left
              simp [informantStep, h]
            · right
              refine ⟨m, by simp [informantStep, h], Or.inr ⟨n, rfl, by omega⟩,
                Or.inl rfl⟩
      | succ i => exact Or.inl rfl
    | connected i m =>
      cases i with
      | zero =>
        cases known with
        | none => exact Or.inr ⟨m, rfl, Or.inl rfl, Or.inr rfl⟩
        | some n =>
          by_cases h : n ≥ m
          · left
            simp [informantStep, h]
          · right
            exact ⟨m, by simp [informantStep, h], Or.inr ⟨n, rfl, by omega⟩,
              Or.inr rfl⟩
      | succ i => exact Or.inl rfl
    | other => exact Or.inl rfl
  · intro evs more
    unfold informantRun
    rw [List.foldl_append]
    exact informantFold_mono more _

/-- C10: `Client::num_peers` and `Client::num_network_connections` always
return a value and never fail: each equals the underlying count saturated
at `u64::MAX`, so whenever the count does not fit in a u64 they return
`u64::MAX`, and the result always fits in 64 bits. -/
theorem c10_counters_saturate (n : Nat) :
    num_peers n = min n (2 ^ 64 - 1) ∧
      num_network_connections n = min n (2 ^ 64 - 1) ∧
      num_peers n < 2 ^ 64 ∧ num_network_connections n < 2 ^ 64 := by
  have h1 : num_peers n = min n (2 ^ 64 - 1) := by
    unfold num_peers u64TryFrom
    by_cases h : n < 2 ^ 64
    · rw [if_pos h]
      simp only [Option.getD_some]
      omega
    · rw [if_neg h]
      simp only [Option.getD_none]
      omega
  have h2 : num_network_connections n = min n (2 ^ 64 - 1) := by
    unfold num_network_connections u64TryFrom
    by_cases h : n < 2 ^ 64
    · rw [if_pos h]
      simp only [Option.getD_some]
      omega
    · rw [if_neg h]
      simp only [Option.getD_none]
      omega
  refine ⟨h1, h2, ?_, ?_⟩
  · rw [h1]
    omega
  · rw [h2]
    omega

/-- C1: For every well-formed trie with known root and known key-to-value
mapping (under collision-freedom of the modelled hash on its node
encodings), the honest proof decodes, verifies against the root, and the
resulting view answers `get` with `Found(value)` for every present key and
`NotFound` for every absent key (`lookupAnswer` of the ground-truth
mapping); moreover `get` always returns one of `Found`, `FoundHashOnly`,
`NotFound`, `NotInProof`. -/
theorem c1_honest_proof_roundtrip (t : Trie) (key : List Nat)
    (hwf : t.wf = true) (hcoll : t.collFree) :
    buildEntries t.proofBytes = .ok t.entryPairs ∧
      verify t.entryPairs [t.rootHash] = .ok (entryMvs t.entryPairs) ∧
      get t.entryPairs t.rootHash key = lookupAnswer (t.lookup key) ∧
      (∀ es root k2, (∃ b2, get es root k2 = .Found b2) ∨
        (∃ h2, get es root k2 = .FoundHashOnly h2) ∨
        get es root k2 = .NotFound ∨ get es root k2 = .NotInProof) :=
  ⟨buildEntries_honest hwf, verify_honest hwf hcoll, get_honest hwf hcoll key,
    fun es root k2 => by
      cases h : get es root k2 with
      | Found b2 => exact Or.inl ⟨b2, rfl⟩
      | FoundHashOnly h2 => exact Or.inr (Or.inl ⟨h2, rfl⟩)
      | NotFound => exact Or.inr (Or.inr (Or.inl rfl))
      | NotInProof => exact Or.inr (Or.inr (Or.inr rfl))⟩

/-- Witness for C1 at the concrete two-key trie `T0` and a present key. -/
theorem c1_witness :
    buildEntries T0.proofBytes = .ok T0.entryPairs ∧
      verify T0.entryPairs [T0.rootHash] = .ok (entryMvs T0.entryPairs) ∧
      get T0.entryPairs T0.rootHash [0, 2] = lookupAnswer (T0.lookup [0, 2]) ∧
      (∀ es root k2, (∃ b2, get es root k2 = .Found b2) ∨
        (∃ h2, get es root k2 = .FoundHashOnly h2) ∨
        get es root k2 = .NotFound ∨ get es root k2 = .NotInProof) :=
  c1_honest_proof_roundtrip T0 [0, 2] (by decide) (by decide)

/-- C2: On success the verifier's visited set equals the full set of
decoded proof entries; and appending to a valid proof one syntactically
valid node encoding whose merkle value is new and that no reachable node
references makes verification fail with `UnusedEntry`. -/
theorem c2_reachability_equals_entries
    (buf g : List Nat) (roots : List (List Nat))
    (es : List (List Nat × TrieNode)) (V : Finset MerkleValue) (ng : TrieNode)
    (hbuild : buildEntries buf = .ok es)
    (hverify : verify es roots = .ok V)
    (hg : decode_node g = .ok (ng, g.length)) (hgne : g ≠ [])
    (hfresh : merkle_value g ∉ entryMvs es)
    (hunref : ∀ p ∈ es, merkle_value p.1 ∈ reachSet es roots →
      hashBytes g ∉ nodeRefs p.2) :
    V = entryMvs es ∧
      decodeAndVerify (buf ++ g) roots = .error (.Graph .UnusedEntry) := by
  constructor
  · rcases verify_ok_elim hverify with ⟨he, _, hv⟩ | ⟨_, _, _, hall, hv⟩
    · subst he
      subst hv
      simp [entryMvs]
    · subst hv
      refine Finset.Subset.antisymm (reachSet_subset _ _) (fun x hx => ?_)
      obtain ⟨p, hp, hpmv⟩ := mem_entryMvs.mp hx
      rw [← hpmv]
      exact hall p hp
  · unfold decodeAndVerify
    rw [buildEntries_append hbuild hg hgne hfresh]
    exact verify_append_unused hverify hfresh hunref

/-- Witness for C2: a one-entry proof with a second, unreferenced leaf
encoding appended. -/
theorem c2_witness :
    entryMvs [(eLeaf, nLeaf)] = entryMvs [(eLeaf, nLeaf)] ∧
      decodeAndVerify (eLeaf ++ eLeaf2) [hashBytes eLeaf] =
        .error (.Graph .UnusedEntry) :=
  c2_reachability_equals_entries eLeaf eLeaf2 [hashBytes eLeaf]
    [(eLeaf, nLeaf)] (entryMvs [(eLeaf, nLeaf)]) nLeaf2
    (by decide) (by decide) (by decide) (by decide) (by decide) (by decide)

/-- C4: Whenever two decoded entries of a buffer share a merkle value,
proof-graph construction fails with `DuplicateEntry`; in particular any
buffer formed by repeating one valid node encoding verbatim fails so, even
though each copy alone decodes validly. -/
theorem c4_duplicate_entry (buf e : List Nat) (n : TrieNode)
    (es : List (List Nat × TrieNode))
    (hscan : scanEntries buf = .complete es)
    (hdup : ¬ (es.map (fun p => merkle_value p.1)).Nodup)
    (he : decode_node e = .ok (n, e.length)) (hene : e ≠ []) :
    buildEntries buf = .error (.Graph .DuplicateEntry) ∧
      buildEntries (e ++ e) = .error (.Graph .DuplicateEntry) := by
  constructor
  · unfold buildEntries
    rw [hscan]
    simp only [buildOfScan]
    rw [if_neg hdup]
  · have hse : scanEntries e = .complete [(e, n)] := by
      rw [scanEntries_step hene he]
      simp only [List.drop_length, List.take_length, scanEntries_nil]
    have hsee : scanEntries (e ++ e) = .complete [(e, n), (e, n)] := by
      rw [scanEntries_append hse, hse]
      rfl
    unfold buildEntries
    rw [hsee]
    simp only [buildOfScan]
    rw [if_neg (by simp)]

/-- Witness for C4: the leaf encoding repeated verbatim. -/
theorem c4_witness :
    buildEntries (eLeaf ++ eLeaf) = .error (.Graph .DuplicateEntry) ∧
      buildEntries (eLeaf ++ eLeaf) = .error (.Graph .DuplicateEntry) :=
  c4_duplicate_entry (eLeaf ++ eLeaf) eLeaf nLeaf
    [(eLeaf, nLeaf), (eLeaf, nLeaf)]
    (by decide) (by decide) (by decide) (by decide)

/-- C5: With a nonempty entry list and a single requested root, a proof
whose entries never hash to the root fails with `RootNotFound`, while a
proof containing the root entry but hash-referencing, from a reachable
entry, a merkle value with no entry fails with `MissingChild`. -/
theorem c5_rootnotfound_missingchild (es : List (List Nat × TrieNode))
    (R : List Nat) (hne : es ≠ []) :
    ((∀ p ∈ es, hashBytes p.1 ≠ R) →
      verify es [R] = .error (.Graph .RootNotFound)) ∧
    ((∃ p ∈ es, hashBytes p.1 = R) →
      (∃ p ∈ es, merkle_value p.1 ∈ reachSet es [R] ∧
        ∃ h ∈ nodeRefs p.2, MerkleValue.Hashed h ∉ entryMvs es) →
      verify es [R] = .error (.Graph .MissingChild)) := by
  have hempty : ¬ (es.isEmpty = true) := by
    cases es with
    | nil => exact absurd rfl hne
    | cons a l => simp
  constructor
  · intro hnone
    unfold verify
    rw [if_neg hempty]
    rw [if_neg (by
      intro hall
      obtain ⟨p, hp, hpred⟩ := hall R (by simp)
      exact hnone p hp hpred)]
  · intro hfound hmiss
    unfold verify
    rw [if_neg hempty]
    rw [if_pos (by
      intro R2 hR2
      simp only [List.mem_singleton] at hR2
      subst hR2
      exact hfound)]
    rw [if_pos hmiss]

/-- Witness for C5: the leaf entry against a root hash it does not match,
and a branch entry that hash-references an absent child. -/
theorem c5_witness :
    verify [(eLeaf, nLeaf)] [List.replicate 32 0] =
      .error (.Graph .RootNotFound) ∧
      verify [(TMissing.encode, decodedNode TMissing.encode)]
        [hashBytes TMissing.encode] = .error (.Graph .MissingChild) :=
  ⟨(c5_rootnotfound_missingchild [(eLeaf, nLeaf)] (List.replicate 32 0)
      (by decide)).1 (by decide),
    (c5_rootnotfound_missingchild
      [(TMissing.encode, decodedNode TMissing.encode)]
      (hashBytes TMissing.encode) (by decide)).2 (by decide) (by decide)⟩

/-- C8: The proof buffer is consumed as a concatenation of self-delimiting
node encodings with no outer length prefix; when the final decoded entry
does not end exactly at the buffer boundary (the remaining bytes fail to
decode as a further entry), graph construction fails with
`TrailingGarbage`; supplying zero entries is accepted by the builder, and
verifying zero entries while at least one root is requested fails with
`Empty`. -/
theorem c8_concatenation_boundaries (C g : List Nat)
    (es : List (List Nat × TrieNode)) (e0 : CodecError) (r : List Nat)
    (rs : List (List Nat))
    (hbuild : buildEntries C = .ok es) (hes : es ≠ [])
    (hgerr : decode_node g = .error e0) (hgne : g ≠ []) :
    buildEntries (C ++ g) = .error (.Graph .TrailingGarbage) ∧
      buildEntries [] = .ok [] ∧
      verify [] (r :: rs) = .error (.Graph .Empty) := by
  refine ⟨?_, ?_, ?_⟩
  · obtain ⟨hscan, _⟩ := buildEntries_ok_iff.mp hbuild
    have hsg : scanEntries g = .failed [] e0 := scanEntries_error hgne hgerr
    have hcg : scanEntries (C ++ g) = .failed es e0 := by
      rw [scanEntries_append hscan, hsg]
      simp
    unfold buildEntries
    rw [hcg]
    cases es with
    | nil => exact absurd rfl hes
    | cons p es2 => simp [buildOfScan]
  · show buildOfScan (scanEntries []) = .ok []
    rw [scanEntries_nil]
    simp [buildOfScan]
  · unfold verify
    rw [if_pos (by simp)]
    rw [if_neg (by simp)]

/-- Witness for C8: the leaf proof followed by an invalid-header byte, and
an empty proof checked against one root. -/
theorem c8_witness :
    buildEntries (eLeaf ++ [255]) = .error (.Graph .TrailingGarbage) ∧
      buildEntries [] = .ok [] ∧
      verify [] ([0] :: []) = .error (.Graph .Empty) :=
  c8_concatenation_boundaries eLeaf [255] [(eLeaf, nLeaf)] .InvalidHeader
    [0] [] (by decide) (by decide) (by decide) (by decide)

end Smoldot
